import Mathlib

/-!
Verification of the natural-language specification of the
Data-Analyst-AI-Agent query translation and execution pipeline
(`core/ml_engine.py`, `core/ai_client.py`) against a shallow embedding
of the source code.  Python strings are modelled as `List Char`;
Python exceptions are modelled with `Except`.
-/

set_option maxRecDepth 10000

/-- Python `str.isspace`-relevant whitespace characters, as used by
`str.strip()` with no argument: space, tab, newline, carriage return,
vertical tab, form feed. -/
def pyIsSpace (c : Char) : Bool :=
  c.toNat = 32 || c.toNat = 9 || c.toNat = 10 || c.toNat = 13 ||
  c.toNat = 11 || c.toNat = 12

/-- ASCII uppercase map of Python `str.upper()` restricted to the basic
latin letters (all strings handled by the pipeline are ASCII); written
as an explicit table so that its properties are provable by case
splitting. -/
def upperTable : List (Char × Char) :=
  [('a', 'A'), ('b', 'B'), ('c', 'C'), ('d', 'D'), ('e', 'E'), ('f', 'F'),
   ('g', 'G'), ('h', 'H'), ('i', 'I'), ('j', 'J'), ('k', 'K'), ('l', 'L'),
   ('m', 'M'), ('n', 'N'), ('o', 'O'), ('p', 'P'), ('q', 'Q'), ('r', 'R'),
   ('s', 'S'), ('t', 'T'), ('u', 'U'), ('v', 'V'), ('w', 'W'), ('x', 'X'),
   ('y', 'Y'), ('z', 'Z')]

/-- Uppercase one character via the table. -/
def pyUpperChar (c : Char) : Char :=
  ((upperTable.find? (fun p => p.1 == c)).map Prod.snd).getD c

/-- Python `s.upper()` on a string modelled as a character list. -/
def upperL (s : List Char) : List Char := s.map pyUpperChar

/-- Python `s.lower()` (table form, mirror of `pyUpperChar`). -/
def pyLowerChar (c : Char) : Char :=
  ((upperTable.find? (fun p => p.2 == c)).map Prod.fst).getD c

/-- Python `s.lower()` on a string modelled as a character list. -/
def lowerL (s : List Char) : List Char := s.map pyLowerChar

/-- Python `s.lstrip()`. -/
def lstrip (s : List Char) : List Char := s.dropWhile pyIsSpace

/-- Drop from the right while the predicate holds (Python `rstrip`
generalised over the stripped character class). -/
def rdropP (p : Char → Bool) (s : List Char) : List Char :=
  (s.reverse.dropWhile p).reverse

/-- Python `s.strip()`. -/
def pyStrip (s : List Char) : List Char := rdropP pyIsSpace (lstrip s)

/-- Python `s.rstrip(';')`. -/
def rstripSemi (s : List Char) : List Char := rdropP (fun c => c = ';') s

/-- Index of the first occurrence of `pat` as a contiguous substring
(Python `s.index(pat)` / the position probed by `pat in s`). -/
def firstIdx? (pat : List Char) : List Char → Option Nat
  | [] => if pat.isPrefixOf ([] : List Char) then some 0 else none
  | c :: rest =>
    if pat.isPrefixOf (c :: rest) then some 0
    else (firstIdx? pat rest).map (· + 1)

/-- Python `pat in s` (contiguous substring test). -/
def containsSub (pat s : List Char) : Bool := (firstIdx? pat s).isSome

/-- Number of positions of `s` at which `pat` occurs as a contiguous
substring. -/
def countOcc (pat : List Char) : List Char → Nat
  | [] => 0
  | c :: rest => (if pat.isPrefixOf (c :: rest) then 1 else 0) + countOcc pat rest

/-- Fuel-driven worker for `removeAll` (structural recursion so that
the kernel can evaluate it). -/
def removeAllAux (pat : List Char) : Nat → List Char → List Char
  | 0, s => s
  | _ + 1, [] => []
  | fuel + 1, c :: rest =>
    if pat.isPrefixOf (c :: rest) then
      removeAllAux pat fuel (List.drop (pat.length - 1) rest)
    else c :: removeAllAux pat fuel rest

/-- Python `s.replace(pat, '')`: remove all (non-overlapping, leftmost
first) occurrences of `pat`. -/
def removeAll (pat s : List Char) : List Char := removeAllAux pat s.length s

/-- Python `s.split('\n')`. -/
def splitNl : List Char → List (List Char)
  | [] => [[]]
  | c :: r =>
    match splitNl r with
    | [] => [[c]]
    | p :: ps => if c = '\n' then [] :: p :: ps else (c :: p) :: ps

/-- Python `' '.join(lines)`. -/
def joinSp : List (List Char) → List Char
  | [] => []
  | [l] => l
  | l :: l' :: ls => l ++ ' ' :: joinSp (l' :: ls)

/-! ## The post-processing pipeline of `generate_sql_query`
(`core/ml_engine.py`, lines 153-219), step by step, in source order. -/

/-- Line 160: strip markdown code fences:
`sql_query.replace('```sql', '').replace('```SQL', '').replace('```', '').strip()`. -/
def fenceStep (s : List Char) : List Char :=
  pyStrip (removeAll "```".data (removeAll "```SQL".data (removeAll "```sql".data s)))

/-- Lines 163-164: drop a leading `SQL:` label:
`if sql_query.upper().startswith('SQL:'): sql_query = sql_query[4:].strip()`. -/
def labelStep (s : List Char) : List Char :=
  if "SQL:".data.isPrefixOf (upperL s) then pyStrip (s.drop 4) else s

/-- Lines 167-169: discard prose before the first `SELECT`:
`if 'SELECT' in sql_query.upper(): sql_query = sql_query[sql_query.upper().index('SELECT'):]`. -/
def proseStep (s : List Char) : List Char :=
  match firstIdx? "SELECT".data (upperL s) with
  | some i => s.drop i
  | none => s

/-- The per-line cleanup of lines 172: strip each line, discard blanks. -/
def linesOf (s : List Char) : List (List Char) :=
  ((splitNl s).map pyStrip).filter (fun l => !l.isEmpty)

/-- Lines 172-181: if the reply has several non-blank lines, keep the
first when it already contains both `SELECT` and `FROM`, otherwise join
all lines with single spaces. -/
def lineStep (s : List Char) : List Char :=
  match linesOf s with
  | l0 :: l1 :: ls =>
    if containsSub "SELECT".data (upperL l0) && containsSub "FROM".data (upperL l0) then
      l0
    else joinSp (l0 :: l1 :: ls)
  | _ => s

/-- Line 184: `sql_query.rstrip(';').strip()`. -/
def semiStep (s : List Char) : List Char := pyStrip (rstripSemi s)

/-- Line 193: the keyword list probed for the `FROM` insertion point. -/
def kwList : List (List Char) :=
  ["WHERE".data, "GROUP BY".data, "HAVING".data, "ORDER BY".data, "LIMIT".data]

/-- Lines 193-200: fold computing `insert_pos`, the minimum over the
keywords present of their first occurrence, starting from `len(sql_query)`. -/
def ipStep (u : List Char) (ip : Nat) (k : List Char) : Nat :=
  match firstIdx? k u with
  | some p => if p < ip then p else ip
  | none => ip

/-- The fold of lines 194-200 over the keyword list. -/
def insertPos (u : List Char) : Nat := kwList.foldl (ipStep u) u.length

/-- Lines 186-207: inject a `FROM <table_name>` clause when the query
contains `SELECT` but no `FROM`:
`sql_query = f"{before} FROM {table_name} {after}".strip()`. -/
def fixFrom (table s : List Char) : List Char :=
  if containsSub "SELECT".data (upperL s) && !containsSub "FROM".data (upperL s) then
    pyStrip (pyStrip (s.take (insertPos (upperL s))) ++ " FROM ".data ++ table
      ++ " ".data ++ pyStrip (s.drop (insertPos (upperL s))))
  else s

/-- The pipeline before the `FROM`-injection step: initial
`.strip()` of the raw reply (line 153) followed by fence, label, prose
and line handling and terminator stripping (lines 160-184). -/
def cleanNoFix (s : List Char) : List Char :=
  semiStep (lineStep (proseStep (labelStep (fenceStep (pyStrip s)))))

/-- The complete post-processing pipeline of `generate_sql_query`
applied to a raw provider reply (lines 153-207). -/
def cleanSql (table raw : List Char) : List Char :=
  fixFrom table (cleanNoFix raw)

/-- Lines 209-216: final validation; the error strings are the embedded
exception messages. -/
def validateSql (q : List Char) : Except (List Char) (List Char) :=
  if !("SELECT".data.isPrefixOf (upperL q)) then
    .error ("Generated invalid SQL query: ".data ++ q)
  else if !containsSub "FROM".data (upperL q) then
    .error ("Generated SQL missing FROM clause: ".data ++ q)
  else .ok q

/-- `generate_sql_query` from the provider reply onwards: post-process,
validate, and re-wrap any raised error in the outer handler of lines
221-223 (`Error generating SQL query: ...`). -/
def generate_sql_query_post (table raw : List Char) : Except (List Char) (List Char) :=
  match validateSql (cleanSql table raw) with
  | .ok q => .ok q
  | .error e => .error ("Error generating SQL query: ".data ++ e)

/-- The default table name `data` of `generate_sql_query`. -/
def dataT : List Char := "data".data


/-! ## Model of `UnifiedAIClient` (`core/ai_client.py`, lines 208-327) -/

/-- A configured provider adapter: its available model list
(`get_available_models`) and its `chat_completion` behaviour for a given
model, for one fixed message/parameter set (the call either returns the
reply text or raises). -/
structure Provider where
  models : List (List Char)
  call : List Char → Except (List Char) (List Char)

/-- The `UnifiedAIClient` state: registered clients in registration
order, the active provider name, and the active model. -/
structure UClient where
  clients : List (List Char × Provider)
  activeProvider : Option (List Char)
  activeModel : List Char

/-- Dictionary lookup `self.clients[name]`. -/
def findClient : List (List Char × Provider) → List Char → Option Provider
  | [], _ => none
  | (m, p) :: rest, n => if m = n then some p else findClient rest n

/-- Lines 287-301: the fallback loop over `self.clients.items()`:
skip the active provider, call each remaining provider with its first
available model, return the first success; an empty model list raises
an IndexError that the `except` swallows, so it counts as a failure. -/
def tryFallbacks (active : List Char) : List (List Char × Provider) → Option (List Char)
  | [] => none
  | (n, p) :: rest =>
    if n = active then tryFallbacks active rest
    else
      match p.models with
      | [] => tryFallbacks active rest
      | m :: _ =>
        match p.call m with
        | .ok r => some r
        | .error _ => tryFallbacks active rest

/-- Lines 273-304 for a resolved active client: try the active provider
with the active model; on failure run the fallback loop; if everything
fails raise `All AI providers failed. Last error: {e}` where `e` is the
error of the initial (active-provider) attempt. -/
def chat_try (c : UClient) (ap : List Char) (p : Provider) :
    Except (List Char) (List Char) :=
  match p.call c.activeModel with
  | .ok r => .ok r
  | .error e =>
    match tryFallbacks ap c.clients with
    | some r => .ok r
    | none => .error ("All AI providers failed. Last error: ".data ++ e)

/-- Line 275: `self.clients[self.active_provider]`; a KeyError would be
caught by the same `except` and start the fallback loop. -/
def chat_afterActive (c : UClient) (ap : List Char) :
    Except (List Char) (List Char) :=
  match findClient c.clients ap with
  | none =>
    match tryFallbacks ap c.clients with
    | some r => .ok r
    | none => .error ("All AI providers failed. Last error: KeyError: ".data ++ ap)
  | some p => chat_try c ap p

/-- Lines 264-304: `UnifiedAIClient.chat_completion`: require an active
provider, then delegate. -/
def chat_completion (c : UClient) : Except (List Char) (List Char) :=
  match c.activeProvider with
  | none => .error "No active provider set. Use set_active_provider() first".data
  | some ap => chat_afterActive c ap

/-- An entry of the client registry contributes nothing to the fallback
loop: it is the active provider, or it has no models (IndexError), or
its call with its first model fails. -/
def fallbackFails (active : List Char) (e : List Char × Provider) : Prop :=
  e.1 = active ∨ (∀ m ms, e.2.models = m :: ms → ∃ err, e.2.call m = .error err)

/-! ## Model of `execute_query` (`core/ml_engine.py`, lines 226-246) -/

/-- An uploaded dataset: named columns and rows of cell texts. -/
structure DataFrame where
  cols : List (List Char)
  rows : List (List (List Char))
deriving DecidableEq

/-- The tables held by one sqlite3 connection. -/
structure SqlConn where
  tables : List (List Char × DataFrame)
deriving DecidableEq

/-- `sqlite3.connect(':memory:')`: a fresh connection with no tables. -/
def sqlite_connect_memory : SqlConn := ⟨[]⟩

/-- `df.to_sql('data', conn, index=False, if_exists='replace')`. -/
def to_sql (name : List Char) (df : DataFrame) (conn : SqlConn) : SqlConn :=
  ⟨(name, df) :: conn.tables.filter (fun t => !(t.1 == name))⟩

/-- `execute_query(df, sql_query)`: connect a fresh in-memory engine,
materialise `df` as table `data`, run the query once, wrap an engine
error as `Error executing query: {e}`, and close the connection.  The
returned triple is (call result, the dataframe after the call — the
code never rebinds or mutates `df` — and the list of queries submitted
to the engine during the call). -/
def execute_query (engine : SqlConn → List Char → Except (List Char) DataFrame)
    (df : DataFrame) (sql_query : List Char) :
    Except (List Char) DataFrame × DataFrame × List (List Char) :=
  match engine (to_sql "data".data df sqlite_connect_memory) sql_query with
  | .ok result => (.ok result, df, [sql_query])
  | .error e => (.error ("Error executing query: ".data ++ e), df, [sql_query])

/-- Modelled from the spec: the relational engine itself
(`pandas.read_sql_query` over `sqlite3`) is library code not under
`src/`; per the spec, a rejected query surfaces "including the original
query text" — pandas raises `Execution failed on sql '<query>': <cause>`,
which this definition renders. -/
def pandasEngineError (q cause : List Char) : List Char :=
  "Execution failed on sql '".data ++ q ++ "': ".data ++ cause

/-! ## Model of `interpret_results` (`core/ml_engine.py`, lines 249-296) -/

/-- `results.head(10)`. -/
def dfHead (n : Nat) (df : DataFrame) : DataFrame := ⟨df.cols, df.rows.take n⟩

/-- Join lines with newlines (helper for the rendering abstraction). -/
def joinNl : List (List Char) → List Char
  | [] => []
  | [l] => l
  | l :: l' :: ls => l ++ '
' :: joinNl (l' :: ls)

/-- Abstraction of `DataFrame.to_string()` (library rendering): header
line then one line per row. -/
def renderDf (df : DataFrame) : List Char :=
  joinNl (joinSp df.cols :: df.rows.map joinSp)

/-- Line 269: `results.head(10).to_string() if len(results) > 10 else
results.to_string()`. -/
def results_preview (results : DataFrame) : List Char :=
  if 10 < results.rows.length then renderDf (dfHead 10 results) else renderDf results

/-- Lines 271-283: the interpretation prompt. -/
def interpPrompt (query sqlq : List Char) (results : DataFrame) : List Char :=
  "Analyze the following query results and provide a clear, concise interpretation:\n\nOriginal Question: ".data
  ++ query ++ "\nSQL Query Used: ".data ++ sqlq
  ++ "\nResults (".data ++ (toString results.rows.length).data ++ " rows):\n".data
  ++ results_preview results
  ++ "\n\nPlease provide:\n1. A summary of what the data shows\n2. Key insights or patterns\n3. Direct answer to the original question\n\nKeep the response clear and business-friendly. Do not use markdown formatting.".data

/-- Lines 262-296: `interpret_results`.  `client = none` models the
no-provider-configured path; otherwise the provider is called on the
prompt and any raised error is converted to the fallback text of line
296 instead of being propagated (the function always returns a string). -/
def interpret_results (client : Option (List Char → Except (List Char) (List Char)))
    (query sqlq : List Char) (results : DataFrame) : List Char :=
  match client with
  | none => "AI interpretation unavailable - no provider configured".data
  | some call =>
    match call (interpPrompt query sqlq results) with
    | .ok t => pyStrip t
    | .error e =>
      "Results retrieved successfully, but couldn't generate interpretation: ".data ++ e

/-! ## Model of `preprocess_and_save` column cleaning and dtype
inference (`core/ml_engine.py`, lines 46-63) -/

/-- Characters kept by the regex replacement
`str.replace('[^A-Za-z0-9_]', '', regex=True)`. -/
def isWordChar (c : Char) : Bool :=
  ('A' ≤ c && c ≤ 'Z') || ('a' ≤ c && c ≤ 'z') || ('0' ≤ c && c ≤ '9') || c = '_'

/-- Lines 47-53: `df.columns.astype(str).str.strip().str.replace(' ', '_')
.str.replace('[^A-Za-z0-9_]', '', regex=True)` applied to one name. -/
def cleanColName (name : List Char) : List Char :=
  ((pyStrip name).map (fun c => if c = ' ' then '_' else c)).filter isWordChar

/-- Pandas column dtypes relevant to the inference loop. -/
inductive Dtype
  | objectD | numericD | datetimeD | otherD
deriving DecidableEq

/-- Lines 56-63: per-column type inference: a column whose (cleaned)
name contains `date` (case-insensitively) is parsed with
`pd.to_datetime(errors='coerce')` (dtype becomes datetime); otherwise an
object column is converted with `pd.to_numeric` when every value parses
(else the ValueError/TypeError is swallowed and the column is left
unchanged). -/
def inferDtype (colName : List Char) (d : Dtype) (numericParses : Bool) : Dtype :=
  if containsSub "date".data (lowerL colName) then .datetimeD
  else
    match d with
    | .objectD => if numericParses then .numericD else .objectD
    | x => x

/-! ### Auxiliary definitions used by the verification -/

/-- The string has no leading Python whitespace. -/
def NoLead (s : List Char) : Prop := ∀ c, s.head? = some c → pyIsSpace c = false

/-- The string has no trailing Python whitespace. -/
def NoTrail (s : List Char) : Prop := ∀ c, s.getLast? = some c → pyIsSpace c = false

/-- The string is invariant under `strip()`. -/
def Stripped (s : List Char) : Prop := NoLead s ∧ NoTrail s

/-- The backtick character (not written as a literal). -/
def btick : Char := Char.ofNat 96

/-- The triple-backtick fence pattern as an explicit cons list. -/
def tks : List Char := [btick, btick, btick]

/-- A keyword of the insertion list occurs at position `j` of `u`. -/
def KwAt (u : List Char) (j : Nat) : Prop :=
  ∃ k ∈ kwList, k.isPrefixOf (u.drop j) = true

/-- The two-provider client of the C5 counterexample: the active
provider `a` fails with `e1`, the fallback `b` fails with `e2`. -/
def cexClientC5 : UClient :=
  ⟨[("a".data, ⟨["m1".data], fun _ => .error "e1".data⟩),
    ("b".data, ⟨["m2".data], fun _ => .error "e2".data⟩)],
   some "a".data, "m1".data⟩

/-- The fallback provider of the C5 witness: it succeeds with its
first model. -/
def witProviderB : Provider := ⟨["m2".data], fun _ => .ok "hello".data⟩

/-- The failing active provider of the C5 witness. -/
def witProviderA : Provider := ⟨["m1".data], fun _ => .error "e1".data⟩

/-- C5 witness client: the active provider `a` fails, the fallback `b`
succeeds. -/
def witClientC5 : UClient :=
  ⟨[("a".data, witProviderA), ("b".data, witProviderB)], some "a".data, "m1".data⟩


/-! ## Lemmas: substring search -/

theorem containsSub_nil (pat : List Char) : containsSub pat [] = pat.isEmpty := by
  cases pat <;> simp [containsSub, firstIdx?, List.isPrefixOf]

theorem containsSub_cons (pat : List Char) (c : Char) (r : List Char) :
    containsSub pat (c :: r) = (pat.isPrefixOf (c :: r) || containsSub pat r) := by
  simp only [containsSub, firstIdx?]
  by_cases h : pat.isPrefixOf (c :: r)
  · simp [h]
  · simp only [h, if_false, Bool.false_or]
    cases firstIdx? pat r <;> simp

theorem containsSub_iff_part {pat s : List Char} :
    containsSub pat s = true ↔ pat <:+: s := by
  induction s with
  | nil =>
    rw [containsSub_nil]
    simp [List.isEmpty_iff]
  | cons c r ih =>
    rw [containsSub_cons, List.infix_cons_iff]
    simp only [Bool.or_eq_true, ih, List.isPrefixOf_iff_prefix]

theorem countOcc_eq_zero_iff {pat s : List Char} (h : pat ≠ []) :
    countOcc pat s = 0 ↔ ¬ pat <:+: s := by
  induction s with
  | nil => simp [countOcc, h]
  | cons c r ih =>
    simp only [countOcc]
    rw [ List.infix_cons_iff]
    by_cases hp : pat.isPrefixOf (c :: r)
    · simp [hp, List.isPrefixOf_iff_prefix.mp hp]
    · have hp' : ¬ pat <+: (c :: r) := by
        rw [← List.isPrefixOf_iff_prefix]; exact hp
      simp [hp, hp', ih]

theorem containsSub_eq_false_iff {pat s : List Char} :
    containsSub pat s = false ↔ ¬ pat <:+: s := by
  rw [← containsSub_iff_part]
  cases containsSub pat s <;> simp

theorem firstIdx?_spec {pat s : List Char} {i : Nat} (h : firstIdx? pat s = some i) :
    pat.isPrefixOf (s.drop i) = true ∧ ∀ j, j < i → ¬ pat.isPrefixOf (s.drop j) = true := by
  induction s generalizing i with
  | nil =>
    simp only [firstIdx?] at h
    split at h
    · rename_i hp
      cases h
      exact ⟨hp, fun j hj _ => absurd hj (Nat.not_lt_zero j)⟩
    · cases h
  | cons c r ih =>
    simp only [firstIdx?] at h
    split at h
    · rename_i hp
      cases h
      exact ⟨by simpa using hp, fun j hj _ => absurd hj (Nat.not_lt_zero j)⟩
    · rename_i hp
      cases e : firstIdx? pat r with
      | none => rw [e] at h; simp at h
      | some i' =>
        rw [e] at h
        simp only [Option.map_some'] at h
        obtain rfl : i' + 1 = i := by injection h
        obtain ⟨h1, h2⟩ := ih e
        constructor
        · simpa using h1
        · intro j hj
          match j with
          | 0 => simpa using hp
          | Nat.succ j' =>
            have hj' : j' < i' := by omega
            simpa using h2 j' hj'

theorem firstIdx?_eq_none_iff {pat s : List Char} :
    firstIdx? pat s = none ↔ ∀ j, ¬ pat.isPrefixOf (s.drop j) = true := by
  induction s with
  | nil =>
    simp only [firstIdx?]
    split
    · rename_i hp
      constructor
      · intro h; cases h
      · intro h; exact absurd hp (by simpa using h 0)
    · rename_i hp
      constructor
      · intro _ j
        simpa using hp
      · intro _; rfl
  | cons c r ih =>
    simp only [firstIdx?]
    split
    · rename_i hp
      constructor
      · intro h; cases h
      · intro h; exact absurd hp (by simpa using h 0)
    · rename_i hp
      constructor
      · intro h j
        have e : firstIdx? pat r = none := by
          cases e : firstIdx? pat r
          · rfl
          · rw [e] at h; simp at h
        match j with
        | 0 => simpa using hp
        | Nat.succ j' => simpa using ih.mp e j'
      · intro h
        have hr : ∀ j, ¬ pat.isPrefixOf (r.drop j) = true := fun j => by
          simpa using h (j + 1)
        rw [ih.mpr hr]
        rfl

theorem firstIdx?_le_of_isPrefixOf {pat s : List Char} {j : Nat}
    (h : pat.isPrefixOf (s.drop j) = true) :
    ∃ i, firstIdx? pat s = some i ∧ i ≤ j := by
  cases e : firstIdx? pat s with
  | none => exact absurd h (firstIdx?_eq_none_iff.mp e j)
  | some i =>
    refine ⟨i, rfl, ?_⟩
    by_contra hc
    exact (firstIdx?_spec e).2 j (by omega) h

theorem firstIdx?_eq_zero_of_isPrefixOf {pat s : List Char} (hne : pat ≠ [])
    (h : pat.isPrefixOf s = true) : firstIdx? pat s = some 0 := by
  cases s with
  | nil =>
    cases pat with
    | nil => exact absurd rfl hne
    | cons p pr => simp [List.isPrefixOf] at h
  | cons c r => simp [firstIdx?, h]

theorem isPrefixOf_append_sep {pat x y : List Char} {sep : Char} (hs : sep ∉ pat) :
    pat.isPrefixOf (x ++ sep :: y) = pat.isPrefixOf x := by
  induction pat generalizing x with
  | nil => simp [List.isPrefixOf]
  | cons p pr ih =>
    cases x with
    | nil =>
      have hps : (p == sep) = false := by
        rw [beq_eq_false_iff_ne]
        intro h
        subst h
        exact hs (List.mem_cons_self _ _)
      simp [List.isPrefixOf, hps]
    | cons a xr =>
      have hs' : sep ∉ pr := fun h => hs (List.mem_cons_of_mem _ h)
      show (p == a && pr.isPrefixOf (xr ++ sep :: y)) = (p == a && pr.isPrefixOf xr)
      rw [ih hs']

theorem countOcc_append_sep {pat x y : List Char} {sep : Char}
    (hne : pat ≠ []) (hs : sep ∉ pat) :
    countOcc pat (x ++ sep :: y) = countOcc pat x + countOcc pat y := by
  induction x with
  | nil =>
    cases pat with
    | nil => exact absurd rfl hne
    | cons p pr =>
      have hps : (p == sep) = false := by
        rw [beq_eq_false_iff_ne]
        intro h
        subst h
        exact hs (List.mem_cons_self _ _)
      show countOcc (p :: pr) (sep :: y) = countOcc (p :: pr) [] + countOcc (p :: pr) y
      simp [countOcc, List.isPrefixOf, hps]
  | cons a xr ih =>
    have hpref : pat.isPrefixOf (a :: (xr ++ sep :: y)) = pat.isPrefixOf (a :: xr) := by
      have h2 := @isPrefixOf_append_sep pat (a :: xr) y sep hs
      simpa using h2
    show countOcc pat (a :: (xr ++ sep :: y)) = countOcc pat (a :: xr) + countOcc pat y
    simp only [countOcc, hpref, ih]
    omega

theorem part_append_sep_iff {pat x y : List Char} {sep : Char}
    (hne : pat ≠ []) (hs : sep ∉ pat) :
    pat <:+: (x ++ sep :: y) ↔ (pat <:+: x ∨ pat <:+: y) := by
  have h1 := @countOcc_append_sep pat x y sep hne hs
  constructor
  · intro h
    by_contra hc
    push_neg at hc
    have z1 : countOcc pat x = 0 := (countOcc_eq_zero_iff hne).mpr hc.1
    have z2 : countOcc pat y = 0 := (countOcc_eq_zero_iff hne).mpr hc.2
    have z : countOcc pat (x ++ sep :: y) = 0 := by omega
    exact (countOcc_eq_zero_iff hne).mp z h
  · intro h
    by_contra hc
    have z : countOcc pat (x ++ sep :: y) = 0 := (countOcc_eq_zero_iff hne).mpr hc
    rcases h with h | h
    · have hx : countOcc pat x ≠ 0 := fun z1 => ((countOcc_eq_zero_iff hne).mp z1) h
      omega
    · have hy : countOcc pat y ≠ 0 := fun z1 => ((countOcc_eq_zero_iff hne).mp z1) h
      omega

theorem countOcc_space_zero {pat l : List Char} (hne : pat ≠ [])
    (hex : ∃ c ∈ pat, pyIsSpace c = false) (hl : ∀ c ∈ l, pyIsSpace c = true) :
    countOcc pat l = 0 := by
  rw [countOcc_eq_zero_iff hne]
  intro hinf
  obtain ⟨c, hcp, hcs⟩ := hex
  rw [hl c (hinf.subset hcp)] at hcs
  cases hcs

/-! ## Lemmas: stripping -/

theorem mem_dropWhile_of_not {α} {p : α → Bool} {c : α} {l : List α}
    (hc : p c = false) (hm : c ∈ l) : c ∈ l.dropWhile p := by
  induction l with
  | nil => cases hm
  | cons a r ih =>
    by_cases pa : p a = true
    · rw [List.dropWhile_cons, if_pos pa]
      rcases List.mem_cons.mp hm with rfl | hm'
      · rw [pa] at hc; cases hc
      · exact ih hm'
    · rw [List.dropWhile_cons, if_neg pa]
      exact hm

theorem head?_dropWhile_false {α} {p : α → Bool} (l : List α) {c : α}
    (h : (l.dropWhile p).head? = some c) : p c = false := by
  induction l with
  | nil => cases h
  | cons a r ih =>
    rw [List.dropWhile_cons] at h
    split at h
    · exact ih h
    · rename_i hpa
      cases h
      simpa using hpa

theorem lstrip_suf (s : List Char) : lstrip s <:+ s := List.dropWhile_suffix _

theorem rdropP_pre (p : Char → Bool) (s : List Char) : rdropP p s <+: s := by
  have h : s.reverse.dropWhile p <:+ s.reverse := List.dropWhile_suffix _
  have h2 := List.reverse_prefix.mpr h
  simpa [rdropP] using h2

theorem pyStrip_part (s : List Char) : pyStrip s <:+: s :=
  ((rdropP_pre _ _).isInfix).trans (lstrip_suf s).isInfix

theorem noLead_lstrip (s : List Char) : NoLead (lstrip s) :=
  fun _ h => head?_dropWhile_false s h

theorem noTrail_rdropP (p : Char → Bool) (s : List Char) :
    ∀ c, (rdropP p s).getLast? = some c → p c = false := by
  intro c h
  rw [← List.head?_reverse] at h
  rw [show (rdropP p s).reverse = s.reverse.dropWhile p by simp [rdropP]] at h
  exact head?_dropWhile_false _ h

theorem noLead_rdropP (p : Char → Bool) {s : List Char} (h : NoLead s) :
    NoLead (rdropP p s) := by
  intro c hc
  obtain ⟨t, ht⟩ := rdropP_pre p s
  cases e : rdropP p s with
  | nil => rw [e] at hc; cases hc
  | cons a rest =>
    rw [e] at hc
    simp only [List.head?_cons, Option.some.injEq] at hc
    subst hc
    apply h
    rw [← ht, e]
    rfl

theorem noLead_pyStrip (s : List Char) : NoLead (pyStrip s) :=
  noLead_rdropP _ (noLead_lstrip s)

theorem noTrail_pyStrip (s : List Char) : NoTrail (pyStrip s) :=
  fun c h => noTrail_rdropP _ _ c h

theorem stripped_pyStrip (s : List Char) : Stripped (pyStrip s) :=
  ⟨noLead_pyStrip s, noTrail_pyStrip s⟩

theorem lstrip_eq_self {s : List Char} (h : NoLead s) : lstrip s = s := by
  cases s with
  | nil => rfl
  | cons c r =>
    have := h c rfl
    simp [lstrip, List.dropWhile_cons, this]

theorem rdropP_eq_self {p : Char → Bool} {s : List Char}
    (h : ∀ c, s.getLast? = some c → p c = false) : rdropP p s = s := by
  cases e : s.reverse with
  | nil =>
    have : s = [] := by simpa using congrArg List.reverse e
    simp [rdropP, this]
  | cons c rr =>
    have hg : s.getLast? = some c := by
      rw [← List.head?_reverse, e]; rfl
    have hp := h c hg
    have : s.reverse.dropWhile p = s.reverse := by
      rw [e, List.dropWhile_cons, if_neg (by simp [hp])]
    simp [rdropP, this]

theorem pyStrip_eq_self {s : List Char} (h : Stripped s) : pyStrip s = s := by
  unfold pyStrip
  rw [lstrip_eq_self h.1, rdropP_eq_self h.2]

theorem pyStrip_idem (s : List Char) : pyStrip (pyStrip s) = pyStrip s :=
  pyStrip_eq_self (stripped_pyStrip s)

theorem rdropP_eq_nil_iff {p : Char → Bool} {s : List Char} :
    rdropP p s = [] ↔ ∀ c ∈ s, p c = true := by
  unfold rdropP
  rw [List.reverse_eq_nil_iff, List.dropWhile_eq_nil_iff]
  constructor
  · intro h c hc
    exact h c (List.mem_reverse.mpr hc)
  · intro h c hc
    exact h c (List.mem_reverse.mp hc)

theorem pyStrip_ne_nil_of_mem {c : Char} {s : List Char} (hm : c ∈ s)
    (hc : pyIsSpace c = false) : pyStrip s ≠ [] := by
  intro h
  have hcl : c ∈ lstrip s := mem_dropWhile_of_not hc hm
  have := (rdropP_eq_nil_iff.mp h) c hcl
  rw [this] at hc
  cases hc

theorem lstrip_decomp (s : List Char) :
    ∃ T, s = T ++ lstrip s ∧ ∀ c ∈ T, pyIsSpace c = true :=
  ⟨s.takeWhile pyIsSpace, (List.takeWhile_append_dropWhile ..).symm,
   fun _ hc => List.mem_takeWhile_imp hc⟩

theorem rdropP_decomp (p : Char → Bool) (s : List Char) :
    ∃ T, s = rdropP p s ++ T ∧ ∀ c ∈ T, p c = true := by
  refine ⟨(s.reverse.takeWhile p).reverse, ?_, ?_⟩
  · have h := @List.takeWhile_append_dropWhile _ p s.reverse
    have h2 := congrArg List.reverse h
    simp only [List.reverse_append, List.reverse_reverse] at h2
    conv_lhs => rw [← h2]
    rfl
  · intro c hc
    exact List.mem_takeWhile_imp (List.mem_reverse.mp hc)

theorem pyStrip_decomp (s : List Char) :
    ∃ T T', s = T ++ pyStrip s ++ T' ∧ (∀ c ∈ T, pyIsSpace c = true) ∧
      ∀ c ∈ T', pyIsSpace c = true := by
  obtain ⟨T, h1, h2⟩ := lstrip_decomp s
  obtain ⟨T', h3, h4⟩ := rdropP_decomp pyIsSpace (lstrip s)
  refine ⟨T, T', ?_, h2, h4⟩
  show s = T ++ rdropP pyIsSpace (lstrip s) ++ T'
  conv_lhs => rw [h1, h3]
  rw [List.append_assoc]

theorem countOcc_append_allspace_right {pat Y T : List Char} (hne : pat ≠ [])
    (hpat : ∀ c ∈ pat, pyIsSpace c = false) (hT : ∀ c ∈ T, pyIsSpace c = true) :
    countOcc pat (Y ++ T) = countOcc pat Y := by
  cases T with
  | nil => simp
  | cons t T' =>
    have hts : t ∉ pat := fun hm => by
      have := hpat t hm
      rw [hT t (List.mem_cons_self _ _)] at this
      cases this
    rw [countOcc_append_sep hne hts]
    have hz : countOcc pat T' = 0 := by
      apply countOcc_space_zero hne
      · cases pat with
        | nil => exact absurd rfl hne
        | cons p pr => exact ⟨p, List.mem_cons_self _ _, hpat p (List.mem_cons_self _ _)⟩
      · exact fun c hc => hT c (List.mem_cons_of_mem _ hc)
    omega

theorem countOcc_append_allspace_left {pat T Y : List Char} (hne : pat ≠ [])
    (hpat : ∀ c ∈ pat, pyIsSpace c = false) (hT : ∀ c ∈ T, pyIsSpace c = true) :
    countOcc pat (T ++ Y) = countOcc pat Y := by
  induction T with
  | nil => simp
  | cons t T' ih =>
    have hpf : pat.isPrefixOf (t :: (T' ++ Y)) = false := by
      cases pat with
      | nil => exact absurd rfl hne
      | cons p pr =>
        have hpt : (p == t) = false := by
          rw [beq_eq_false_iff_ne]
          intro h
          have := hpat p (List.mem_cons_self _ _)
          rw [h, hT t (List.mem_cons_self _ _)] at this
          cases this
        simp [List.isPrefixOf, hpt]
    show countOcc pat (t :: (T' ++ Y)) = countOcc pat Y
    simp only [countOcc, hpf, if_false]
    simpa using ih (fun c hc => hT c (List.mem_cons_of_mem _ hc))

theorem countOcc_pyStrip {pat s : List Char} (hne : pat ≠ [])
    (hpat : ∀ c ∈ pat, pyIsSpace c = false) :
    countOcc pat (pyStrip s) = countOcc pat s := by
  obtain ⟨T, T', hdec, hT, hT'⟩ := pyStrip_decomp s
  conv_rhs => rw [hdec]
  rw [List.append_assoc, countOcc_append_allspace_left hne hpat hT,
      countOcc_append_allspace_right hne hpat hT']

theorem part_append_allspace_left {pat T rest : List Char} {h0 : Char} {pt : List Char}
    (hT : ∀ c ∈ T, pyIsSpace c = true) (hpat : pat = h0 :: pt)
    (hh : pyIsSpace h0 = false) :
    pat <:+: T ++ rest ↔ pat <:+: rest := by
  induction T with
  | nil => simp
  | cons a T' ih =>
    show pat <:+: a :: (T' ++ rest) ↔ _
    rw [ List.infix_cons_iff]
    have hnp : ¬ pat <+: a :: (T' ++ rest) := by
      rw [hpat]
      intro hpf
      obtain ⟨rfl, -⟩ := List.cons_prefix_cons.mp hpf
      rw [hT h0 (List.mem_cons_self _ _)] at hh
      cases hh
    simp only [hnp, false_or]
    exact ih (fun c hc => hT c (List.mem_cons_of_mem _ hc))

theorem revSubIff (l1 l2 : List Char) : l1.reverse <:+: l2.reverse ↔ l1 <:+: l2 :=
  List.reverse_infix

theorem part_append_allspace_right {pat rest T : List Char} {d : Char}
    (hT : ∀ c ∈ T, pyIsSpace c = true) (hd : pat.getLast? = some d)
    (hds : pyIsSpace d = false) :
    pat <:+: rest ++ T ↔ pat <:+: rest := by
  rw [← revSubIff pat (rest ++ T), ← revSubIff pat rest]
  rw [List.reverse_append]
  obtain ⟨pt, hpt⟩ : ∃ pt, pat.reverse = d :: pt := by
    have : pat.reverse.head? = some d := by rw [List.head?_reverse]; exact hd
    exact List.head?_eq_some_iff.mp this
  exact part_append_allspace_left (fun c hc => hT c (List.mem_reverse.mp hc)) hpt hds

theorem part_pyStrip_iff {pat s : List Char} {h0 d : Char} {pt : List Char}
    (hpat : pat = h0 :: pt) (hh : pyIsSpace h0 = false)
    (hd : pat.getLast? = some d) (hds : pyIsSpace d = false) :
    pat <:+: pyStrip s ↔ pat <:+: s := by
  obtain ⟨T, T', hdec, hT, hT'⟩ := pyStrip_decomp s
  conv_rhs => rw [hdec]
  rw [List.append_assoc, part_append_allspace_left hT hpat hh,
      part_append_allspace_right hT' hd hds]


/-! ## Lemmas: uppercasing -/

theorem pyIsSpace_pyUpperChar (c : Char) : pyIsSpace (pyUpperChar c) = pyIsSpace c := by
  unfold pyUpperChar
  cases e : upperTable.find? (fun p => p.1 == c) with
  | none => rfl
  | some p =>
    have hm : p ∈ upperTable := List.mem_of_find?_eq_some e
    have hp := List.find?_some e
    have hc : p.1 = c := by simpa using hp
    have htab : ∀ q ∈ upperTable, pyIsSpace q.1 = false ∧ pyIsSpace q.2 = false := by decide
    simp only [Option.map_some', Option.getD_some]
    rw [(htab p hm).2, ← hc, (htab p hm).1]

theorem upperL_append (x y : List Char) : upperL (x ++ y) = upperL x ++ upperL y :=
  List.map_append _ _ _

theorem upperL_part {x y : List Char} (h : x <:+: y) : upperL x <:+: upperL y := by
  obtain ⟨t, u, rfl⟩ := h
  exact ⟨upperL t, upperL u, by simp [upperL]⟩

theorem lstrip_upperL (s : List Char) : lstrip (upperL s) = upperL (lstrip s) := by
  unfold lstrip upperL
  rw [List.dropWhile_map,
      show (pyIsSpace ∘ pyUpperChar) = pyIsSpace from funext pyIsSpace_pyUpperChar]

theorem rdropP_upperL (s : List Char) :
    rdropP pyIsSpace (upperL s) = upperL (rdropP pyIsSpace s) := by
  unfold rdropP upperL
  rw [← List.map_reverse, List.dropWhile_map,
      show (pyIsSpace ∘ pyUpperChar) = pyIsSpace from funext pyIsSpace_pyUpperChar,
      ← List.map_reverse]

theorem pyStrip_upperL (s : List Char) : pyStrip (upperL s) = upperL (pyStrip s) := by
  unfold pyStrip
  rw [lstrip_upperL, rdropP_upperL]

theorem upperL_take (n : Nat) (s : List Char) : upperL (s.take n) = (upperL s).take n := by
  simp [upperL]

theorem upperL_drop (n : Nat) (s : List Char) : upperL (s.drop n) = (upperL s).drop n := by
  simp [upperL]

theorem upperL_length (s : List Char) : (upperL s).length = s.length := by
  simp [upperL]

/-! ## Lemmas: line splitting and joining -/

theorem splitNl_ne_nil (s : List Char) : splitNl s ≠ [] := by
  cases s with
  | nil => simp [splitNl]
  | cons c r =>
    simp only [splitNl]
    split
    · simp
    · split <;> simp

theorem splitNl_head_takeWhile (s : List Char) :
    ∃ ps, splitNl s = s.takeWhile (fun c => !(c == '\n')) :: ps := by
  induction s with
  | nil => exact ⟨[], rfl⟩
  | cons c r ih =>
    obtain ⟨ps, hps⟩ := ih
    simp only [splitNl, hps]
    by_cases hc : c = '\n'
    · subst hc
      refine ⟨r.takeWhile (fun c => !(c == '\n')) :: ps, ?_⟩
      rw [List.takeWhile_cons]
      simp
    · refine ⟨ps, ?_⟩
      rw [List.takeWhile_cons]
      simp [hc]

theorem mem_splitNl_no_nl {p : List Char} {s : List Char} (h : p ∈ splitNl s) :
    '\n' ∉ p := by
  induction s generalizing p with
  | nil =>
    simp only [splitNl, List.mem_singleton] at h
    subst h
    simp
  | cons c r ih =>
    cases e : splitNl r with
    | nil => exact absurd e (splitNl_ne_nil r)
    | cons q qs =>
      have hrw : splitNl (c :: r) =
          if c = '\n' then [] :: q :: qs else (c :: q) :: qs := by
        simp only [splitNl, e]
      rw [hrw] at h
      by_cases hc : c = '\n'
      · rw [if_pos hc] at h
        rcases List.mem_cons.mp h with rfl | h'
        · simp
        · exact ih (by rw [e]; exact h')
      · rw [if_neg hc] at h
        rcases List.mem_cons.mp h with rfl | h'
        · intro hm
          rcases List.mem_cons.mp hm with rfl | hm'
          · exact hc rfl
          · exact ih (by rw [e]; exact List.mem_cons_self q qs) hm'
        · exact ih (by rw [e]; exact List.mem_cons_of_mem q h')

theorem splitNl_append_nl {f t : List Char} (hf : '\n' ∉ f) :
    splitNl (f ++ '\n' :: t) = f :: splitNl t := by
  induction f with
  | nil =>
    show splitNl ('\n' :: t) = [] :: splitNl t
    simp only [splitNl]
    cases e : splitNl t with
    | nil => exact absurd e (splitNl_ne_nil t)
    | cons q qs => simp
  | cons c f' ih =>
    have hc : c ≠ '\n' := fun h => hf (h ▸ List.mem_cons_self c f')
    have hf' : '\n' ∉ f' := fun h => hf (List.mem_cons_of_mem c h)
    show splitNl (c :: (f' ++ '\n' :: t)) = (c :: f') :: splitNl t
    simp only [splitNl, ih hf']
    simp [hc]

theorem splitNl_of_no_nl {s : List Char} (h : '\n' ∉ s) : splitNl s = [s] := by
  induction s with
  | nil => rfl
  | cons c r ih =>
    have hc : c ≠ '\n' := fun hh => h (hh ▸ List.mem_cons_self c r)
    have hr : '\n' ∉ r := fun hh => h (List.mem_cons_of_mem c hh)
    simp only [splitNl, ih hr]
    simp [hc]

theorem mem_splitNl_part {p s : List Char} (h : p ∈ splitNl s) : p <:+: s := by
  induction s generalizing p with
  | nil =>
    simp only [splitNl, List.mem_singleton] at h
    subst h
    exact List.nil_infix
  | cons c r ih =>
    cases e : splitNl r with
    | nil => exact absurd e (splitNl_ne_nil r)
    | cons q qs =>
      have hrw : splitNl (c :: r) =
          if c = '\n' then [] :: q :: qs else (c :: q) :: qs := by
        simp only [splitNl, e]
      rw [hrw] at h
      by_cases hc : c = '\n'
      · rw [if_pos hc] at h
        rcases List.mem_cons.mp h with rfl | h'
        · exact List.nil_infix
        · exact ((ih (by rw [e]; exact h')).trans (List.suffix_cons c r).isInfix)
      · rw [if_neg hc] at h
        rcases List.mem_cons.mp h with rfl | h'
        · obtain ⟨ps, hps⟩ := splitNl_head_takeWhile r
          rw [e] at hps
          have hq : q = r.takeWhile (fun d => !(d == '\n')) := by injection hps
          have hpre : (c :: q) <+: (c :: r) := by
            rw [hq]
            exact List.cons_prefix_cons.mpr ⟨rfl, List.takeWhile_prefix _⟩
          exact hpre.isInfix
        · exact ((ih (by rw [e]; exact List.mem_cons_of_mem q h')).trans
            (List.suffix_cons c r).isInfix)

theorem joinSp_eq_nil_head {L : List (List Char)} {l : List Char} (hl : l ∈ L)
    (hne : l ≠ []) : joinSp L ≠ [] := by
  induction L with
  | nil => cases hl
  | cons a L' ih =>
    cases L' with
    | nil =>
      rcases List.mem_cons.mp hl with rfl | h'
      · simpa [joinSp] using hne
      · cases h'
    | cons b L'' =>
      show a ++ ' ' :: joinSp (b :: L'') ≠ []
      rcases List.mem_cons.mp hl with rfl | _
      · simp [hne]
      · simp

theorem mem_joinSp {c : Char} {L : List (List Char)} (h : c ∈ joinSp L) :
    c = ' ' ∨ ∃ l ∈ L, c ∈ l := by
  induction L with
  | nil => cases h
  | cons a L' ih =>
    cases L' with
    | nil =>
      right
      exact ⟨a, List.mem_cons_self _ _, h⟩
    | cons b L'' =>
      rcases List.mem_append.mp h with h' | h'
      · exact Or.inr ⟨a, List.mem_cons_self _ _, h'⟩
      · rcases List.mem_cons.mp h' with rfl | h''
        · exact Or.inl rfl
        · rcases ih h'' with h3 | ⟨l, hl, hcl⟩
          · exact Or.inl h3
          · exact Or.inr ⟨l, List.mem_cons_of_mem _ hl, hcl⟩

theorem part_joinSp {pat : List Char} {L : List (List Char)} (hne : pat ≠ [])
    (hsp : ' ' ∉ pat) (h : pat <:+: joinSp L) : ∃ l ∈ L, pat <:+: l := by
  induction L with
  | nil =>
    rw [show joinSp [] = [] from rfl, List.infix_nil] at h
    exact absurd h hne
  | cons a L' ih =>
    cases L' with
    | nil => exact ⟨a, List.mem_cons_self _ _, h⟩
    | cons b L'' =>
      rw [show joinSp (a :: b :: L'') = a ++ ' ' :: joinSp (b :: L'') from rfl] at h
      rcases (part_append_sep_iff hne hsp).mp h with h' | h'
      · exact ⟨a, List.mem_cons_self _ _, h'⟩
      · obtain ⟨l, hl, hil⟩ := ih h'
        exact ⟨l, List.mem_cons_of_mem _ hl, hil⟩


/-! ## Lemmas: fence removal -/

theorem mem_removeAllAux {pat : List Char} {c : Char} :
    ∀ {fuel : Nat} {s : List Char}, c ∈ removeAllAux pat fuel s → c ∈ s := by
  intro fuel
  induction fuel with
  | zero => intro s h; exact h
  | succ f ih =>
    intro s h
    cases s with
    | nil => exact h
    | cons a rest =>
      rw [removeAllAux] at h
      split at h
      · exact List.mem_cons_of_mem a (List.drop_subset _ _ (ih h))
      · rcases List.mem_cons.mp h with rfl | h'
        · exact List.mem_cons_self _ _
        · exact List.mem_cons_of_mem a (ih h')

theorem removeAll_subset {pat s : List Char} {c : Char} (h : c ∈ removeAll pat s) :
    c ∈ s := mem_removeAllAux h

theorem removeAllAux_of_not_contains {pat : List Char} :
    ∀ {fuel : Nat} {s : List Char}, ¬ pat <:+: s → removeAllAux pat fuel s = s := by
  intro fuel
  induction fuel with
  | zero => intro s _; rfl
  | succ f ih =>
    intro s h
    cases s with
    | nil => rfl
    | cons a rest =>
      rw [removeAllAux]
      have hp : pat.isPrefixOf (a :: rest) = false := by
        cases e : pat.isPrefixOf (a :: rest)
        · rfl
        · exact absurd (( List.isPrefixOf_iff_prefix.mp e).isInfix) h
      rw [hp]
      simp only [Bool.false_eq_true, if_false]
      rw [ih (fun hi => h (hi.trans (List.suffix_cons a rest).isInfix))]

theorem removeAll_of_not_contains {pat s : List Char} (h : ¬ pat <:+: s) :
    removeAll pat s = s := removeAllAux_of_not_contains h

theorem ticks_eq : "```".data = tks := by decide

theorem consPre_head_eq {a b : Char} {l1 l2 : List Char}
    (h : (a :: l1) <+: (b :: l2)) : a = b :=
  ( List.cons_prefix_cons.mp h).1

theorem consPre_tail {a b : Char} {l1 l2 : List Char}
    (h : (a :: l1) <+: (b :: l2)) : l1 <+: l2 :=
  ( List.cons_prefix_cons.mp h).2

theorem tks_isPrefixOf_cons {a : Char} {rest : List Char} (ha : a ≠ btick) :
    tks.isPrefixOf (a :: rest) = false := by
  have hb : (btick == a) = false := by
    rw [beq_eq_false_iff_ne]
    exact fun hh => ha hh.symm
  simp [tks, List.isPrefixOf, hb]

theorem removeAllAux_tks_head {f : Nat} :
    ∀ {s : List Char}, s.head? ≠ some btick →
      (removeAllAux tks f s).head? ≠ some btick := by
  induction f with
  | zero => intro s h; exact h
  | succ f ih =>
    intro s h
    cases s with
    | nil => exact h
    | cons a rest =>
      have ha : a ≠ btick := fun hh => h (by rw [hh]; rfl)
      rw [removeAllAux, tks_isPrefixOf_cons ha]
      simp only [Bool.false_eq_true, if_false]
      intro hh
      rw [List.head?_cons] at hh
      exact ha (by injection hh)

theorem removeAllAux_tks_head2 {f : Nat} :
    ∀ {s : List Char}, ¬ [btick, btick].isPrefixOf s = true →
      ¬ [btick, btick].isPrefixOf (removeAllAux tks f s) = true := by
  induction f with
  | zero => intro s h; exact h
  | succ f ih =>
    intro s h
    cases s with
    | nil => exact h
    | cons a rest =>
      by_cases ha : a = btick
      · subst ha
        have hrest : rest.head? ≠ some btick := by
          intro hh
          cases rest with
          | nil => cases hh
          | cons b rb =>
            rw [List.head?_cons] at hh
            have hb : b = btick := by injection hh
            subst hb
            exact h (by simp [List.isPrefixOf])
        have hp : tks.isPrefixOf (btick :: rest) = false := by
          cases rest with
          | nil => simp [tks, List.isPrefixOf]
          | cons b rb =>
            have hb : (btick == b) = false := by
              rw [beq_eq_false_iff_ne]
              intro hh
              exact hrest (by rw [List.head?_cons, hh])
            simp [tks, List.isPrefixOf, hb]
        rw [removeAllAux, hp]
        simp only [Bool.false_eq_true, if_false]
        intro hh
        have hhd : (removeAllAux tks f rest).head? = some btick := by
          cases e : removeAllAux tks f rest with
          | nil => rw [e] at hh; simp [List.isPrefixOf] at hh
          | cons b rb =>
            rw [e] at hh
            have hpre := List.isPrefixOf_iff_prefix.mp hh
            have htl := @consPre_tail btick btick [btick] (b :: rb) hpre
            have hb : btick = b := @consPre_head_eq btick b [] rb htl
            rw [List.head?_cons, ← hb]
        exact removeAllAux_tks_head hrest hhd
      · rw [removeAllAux, tks_isPrefixOf_cons ha]
        simp only [Bool.false_eq_true, if_false]
        intro hh
        have hpre := List.isPrefixOf_iff_prefix.mp hh
        exact ha (consPre_head_eq hpre).symm

theorem removeAllAux_tks_no_tks :
    ∀ {f : Nat} {s : List Char}, s.length ≤ f →
      ¬ tks <:+: removeAllAux tks f s := by
  intro f
  induction f with
  | zero =>
    intro s hl
    have hs : s = [] := List.length_eq_zero.mp (Nat.le_zero.mp hl)
    subst hs
    intro h
    rw [show removeAllAux tks 0 ([] : List Char) = [] from rfl, List.infix_nil] at h
    simp [tks] at h
  | succ f ih =>
    intro s hl
    cases s with
    | nil =>
      intro h
      rw [show removeAllAux tks (f + 1) ([] : List Char) = [] from rfl,
          List.infix_nil] at h
      simp [tks] at h
    | cons a rest =>
      rw [removeAllAux]
      by_cases hp : tks.isPrefixOf (a :: rest) = true
      · rw [if_pos hp]
        apply ih
        simp only [List.length_cons] at hl
        calc (rest.drop (tks.length - 1)).length ≤ rest.length :=
              (List.drop_sublist _ _).length_le
          _ ≤ f := by omega
      · rw [if_neg hp]
        intro hinf
        rcases List.infix_cons_iff.mp hinf with hpre | hinf'
        · have ha : a = btick := by
            have := @consPre_head_eq btick a [btick, btick] (removeAllAux tks f rest) hpre
            exact this.symm
          subst ha
          have h2 : ¬ [btick, btick].isPrefixOf rest = true := by
            intro h2
            apply hp
            cases rest with
            | nil => simp [List.isPrefixOf] at h2
            | cons b rb => simpa [tks, List.isPrefixOf] using h2
          have h5 : [btick, btick] <+: removeAllAux tks f rest :=
            @consPre_tail btick btick [btick, btick] (removeAllAux tks f rest) hpre
          have h4 : [btick, btick].isPrefixOf (removeAllAux tks f rest) = true :=
            List.isPrefixOf_iff_prefix.mpr h5
          exact removeAllAux_tks_head2 h2 h4
        · have hr : rest.length ≤ f := by
            simp only [List.length_cons] at hl
            omega
          exact ih hr hinf'

theorem removeAll_tks_no_tks (s : List Char) :
    ¬ tks <:+: removeAll tks s :=
  removeAllAux_tks_no_tks (Nat.le_refl _)

theorem fenceStep_no_ticks (s : List Char) : ¬ "```".data <:+: fenceStep s := by
  rw [ticks_eq]
  unfold fenceStep
  rw [ticks_eq]
  intro h
  exact removeAll_tks_no_tks _ (h.trans (pyStrip_part _))



/-! ## Lemmas: a stripped one-line string has no newline -/

theorem pyStrip_eq_nil_of_all {l : List Char} (h : ∀ c ∈ l, pyIsSpace c = true) :
    pyStrip l = [] := by
  have h1 : lstrip l = [] := List.dropWhile_eq_nil_iff.mpr (fun c hc => by
    rw [h c hc])
  unfold pyStrip
  rw [h1]
  rfl

theorem exists_nl_decomp {s : List Char} (h : '\n' ∈ s) :
    ∃ f t, s = f ++ '\n' :: t ∧ '\n' ∉ f := by
  induction s with
  | nil => cases h
  | cons a r ih =>
    by_cases ha : a = '\n'
    · exact ⟨[], r, by rw [ha]; rfl, by simp⟩
    · have hr : '\n' ∈ r := by
        rcases List.mem_cons.mp h with h' | h'
        · exact absurd h'.symm ha
        · exact h'
      obtain ⟨f, t, hdec, hf⟩ := ih hr
      refine ⟨a :: f, t, by rw [List.cons_append, ← hdec], ?_⟩
      intro hm
      rcases List.mem_cons.mp hm with h' | h'
      · exact ha h'.symm
      · exact hf h'

theorem linesOfRaw_pos {t : List Char} (hc : ∃ c ∈ t, pyIsSpace c = false) :
    1 ≤ (((splitNl t).map pyStrip).filter (fun l => !l.isEmpty)).length := by
  induction t with
  | nil =>
    obtain ⟨c, hm, _⟩ := hc
    cases hm
  | cons a r ih =>
    cases e : splitNl r with
    | nil => exact absurd e (splitNl_ne_nil r)
    | cons q qs =>
      have hrw : splitNl (a :: r) =
          if a = '\n' then [] :: q :: qs else (a :: q) :: qs := by
        simp only [splitNl, e]
      rw [hrw]
      by_cases ha : a = '\n'
      · rw [if_pos ha]
        obtain ⟨c, hm, hcs⟩ := hc
        have hcr : c ∈ r := by
          rcases List.mem_cons.mp hm with rfl | h'
          · rw [ha] at hcs; cases hcs
          · exact h'
        have hih := ih ⟨c, hcr, hcs⟩
        rw [e] at hih
        simpa [List.filter_cons] using hih
      · rw [if_neg ha]
        by_cases hq : pyStrip (a :: q) = []
        · have hall : ∀ c ∈ a :: q, pyIsSpace c = true := by
            intro c hm
            by_contra hns
            exact pyStrip_ne_nil_of_mem hm (by
              cases hv : pyIsSpace c
              · rfl
              · exact absurd hv hns) hq
          have hsq : pyStrip q = [] :=
            pyStrip_eq_nil_of_all (fun c hcq => hall c (List.mem_cons_of_mem _ hcq))
          obtain ⟨c, hm, hcs⟩ := hc
          have hcr : c ∈ r := by
            rcases List.mem_cons.mp hm with rfl | h'
            · rw [hall c (List.mem_cons_self _ _)] at hcs; cases hcs
            · exact h'
          have hih := ih ⟨c, hcr, hcs⟩
          rw [e] at hih
          simp only [List.map_cons, List.filter_cons, hq, hsq] at hih ⊢
          simpa using hih
        · simp only [List.map_cons, List.filter_cons]
          rw [show (!(pyStrip (a :: q)).isEmpty) = true by
            cases e2 : pyStrip (a :: q) with
            | nil => exact absurd e2 hq
            | cons x xs => rfl]
          simp

theorem no_nl_of_stripped_single {s : List Char} (h1 : NoLead s) (h2 : NoTrail s)
    (hlen : (linesOf s).length ≤ 1) : '\n' ∉ s := by
  intro hnl
  obtain ⟨f, t, hdec, hf⟩ := exists_nl_decomp hnl
  have hsplit : splitNl s = f :: splitNl t := by rw [hdec]; exact splitNl_append_nl hf
  have hfne : pyStrip f ≠ [] := by
    cases f with
    | nil =>
      have : s.head? = some '\n' := by rw [hdec]; rfl
      have := h1 '\n' this
      simp [pyIsSpace] at this
    | cons c f' =>
      have hhd : s.head? = some c := by rw [hdec]; rfl
      exact pyStrip_ne_nil_of_mem (List.mem_cons_self _ _) (h1 c hhd)
  have htail : 1 ≤ (((splitNl t).map pyStrip).filter (fun l => !l.isEmpty)).length := by
    cases t with
    | nil =>
      have : s.getLast? = some '\n' := by
        rw [hdec, List.getLast?_append]
        rfl
      have := h2 '\n' this
      simp [pyIsSpace] at this
    | cons u us =>
      obtain ⟨d, hd⟩ : ∃ d, (u :: us).getLast? = some d := by
        cases e2 : (u :: us).getLast? with
        | none => simp [List.getLast?_eq_none_iff] at e2
        | some d => exact ⟨d, rfl⟩
      have hds : s.getLast? = some d := by
        rw [hdec, List.getLast?_append]
        rw [show ('\n' :: u :: us).getLast? = (u :: us).getLast? from
          List.getLast?_cons_cons ..]
        rw [hd]
        rfl
      exact linesOfRaw_pos ⟨d, List.mem_of_getLast?_eq_some hd, h2 d hds⟩
  have hcount : 2 ≤ (linesOf s).length := by
    unfold linesOf
    rw [hsplit]
    simp only [List.map_cons, List.filter_cons]
    rw [show (!(pyStrip f).isEmpty) = true by
      cases e2 : pyStrip f with
      | nil => exact absurd e2 hfne
      | cons x xs => rfl]
    simp only [if_true, List.length_cons]
    omega
  omega

theorem linesOf_mem {s l : List Char} (h : l ∈ linesOf s) :
    Stripped l ∧ l ≠ [] ∧ '\n' ∉ l ∧ l <:+: s := by
  unfold linesOf at h
  obtain ⟨h1, h2⟩ := List.mem_filter.mp h
  obtain ⟨p, hp, rfl⟩ := List.mem_map.mp h1
  refine ⟨stripped_pyStrip p, ?_, ?_, (pyStrip_part p).trans (mem_splitNl_part hp)⟩
  · intro hnil
    rw [hnil] at h2
    simp at h2
  · intro hm
    exact mem_splitNl_no_nl hp ((pyStrip_part p).subset hm)

theorem joinSp_stripped {L : List (List Char)} (h : ∀ l ∈ L, Stripped l ∧ l ≠ []) :
    Stripped (joinSp L) := by
  induction L with
  | nil =>
    constructor
    · intro c hc; cases hc
    · intro c hc; cases hc
  | cons a L' ih =>
    cases L' with
    | nil => exact (h a (List.mem_cons_self _ _)).1
    | cons b L'' =>
      obtain ⟨⟨hna, hta⟩, hane⟩ := h a (List.mem_cons_self _ _)
      have hJ : Stripped (joinSp (b :: L'')) :=
        ih (fun l hl => h l (List.mem_cons_of_mem _ hl))
      have hJne : joinSp (b :: L'') ≠ [] := by
        obtain ⟨-, hbne⟩ := h b (List.mem_cons_of_mem _ (List.mem_cons_self _ _))
        exact joinSp_eq_nil_head (List.mem_cons_self _ _) hbne
      constructor
      · intro c hc
        rw [show joinSp (a :: b :: L'') = a ++ ' ' :: joinSp (b :: L'') from rfl,
            List.head?_append] at hc
        cases a with
        | nil => exact absurd rfl hane
        | cons x xs =>
          apply hna
          rw [List.head?_cons] at hc ⊢
          simpa using hc
      · intro c hc
        rw [show joinSp (a :: b :: L'') = a ++ ' ' :: joinSp (b :: L'') from rfl,
            List.getLast?_append] at hc
        apply hJ.2
        cases e : joinSp (b :: L'') with
        | nil => exact absurd e hJne
        | cons y ys =>
          rw [e] at hc
          rw [show (' ' :: y :: ys).getLast? = (y :: ys).getLast? from
            List.getLast?_cons_cons ..] at hc
          cases e2 : (y :: ys).getLast? with
          | none => simp [List.getLast?_eq_none_iff] at e2
          | some d =>
            rw [e2] at hc
            simpa using hc


/-! ## Invariants of the pipeline output -/

theorem fenceStep_stripped (s : List Char) : Stripped (fenceStep s) := by
  unfold fenceStep
  exact stripped_pyStrip _

theorem labelStep_stripped {s : List Char} (h : Stripped s) : Stripped (labelStep s) := by
  unfold labelStep
  split
  · exact stripped_pyStrip _
  · exact h

theorem labelStep_part (s : List Char) : labelStep s <:+: s := by
  unfold labelStep
  split
  · exact (pyStrip_part _).trans (List.drop_suffix _ _).isInfix
  · exact List.infix_rfl

theorem proseStep_eq_none {s : List Char}
    (e : firstIdx? "SELECT".data (upperL s) = none) : proseStep s = s := by
  unfold proseStep
  rw [e]

theorem proseStep_eq_some {s : List Char} {i : Nat}
    (e : firstIdx? "SELECT".data (upperL s) = some i) : proseStep s = s.drop i := by
  unfold proseStep
  rw [e]

theorem lineStep_eq_nil {s : List Char} (e : linesOf s = []) : lineStep s = s := by
  unfold lineStep
  rw [e]

theorem lineStep_eq_one {s l0 : List Char} (e : linesOf s = [l0]) : lineStep s = s := by
  unfold lineStep
  rw [e]

theorem lineStep_eq_two {s l0 l1 : List Char} {ls : List (List Char)}
    (e : linesOf s = l0 :: l1 :: ls) :
    lineStep s =
      if containsSub "SELECT".data (upperL l0) && containsSub "FROM".data (upperL l0)
      then l0 else joinSp (l0 :: l1 :: ls) := by
  unfold lineStep
  rw [e]

theorem proseStep_stripped {s : List Char} (h : Stripped s) : Stripped (proseStep s) := by
  cases e : firstIdx? "SELECT".data (upperL s) with
  | none => rw [proseStep_eq_none e]; exact h
  | some i =>
    rw [proseStep_eq_some e]
    constructor
    · intro c hc
      have hpre := (firstIdx?_spec e).1
      rw [← upperL_drop] at hpre
      obtain ⟨ys, hys⟩ := List.head?_eq_some_iff.mp hc
      rw [hys] at hpre
      rw [show upperL (c :: ys) = pyUpperChar c :: upperL ys from rfl] at hpre
      rw [show "SELECT".data = 'S' :: "ELECT".data by decide] at hpre
      have hS : 'S' = pyUpperChar c := consPre_head_eq ( List.isPrefixOf_iff_prefix.mp hpre)
      have hsp := pyIsSpace_pyUpperChar c
      rw [← hS] at hsp
      rw [show pyIsSpace 'S' = false by decide] at hsp
      exact hsp.symm
    · intro c hc
      apply h.2
      obtain ⟨pre, hpre2⟩ := List.drop_suffix i s
      rw [← hpre2, List.getLast?_append, hc]
      rfl

theorem proseStep_part (s : List Char) : proseStep s <:+: s := by
  cases e : firstIdx? "SELECT".data (upperL s) with
  | none => rw [proseStep_eq_none e]
  | some i =>
    rw [proseStep_eq_some e]
    exact (List.drop_suffix _ _).isInfix

theorem lineStep_facts {s : List Char} (h : Stripped s) :
    Stripped (lineStep s) ∧ '\n' ∉ lineStep s ∧
      ∀ pat, pat ≠ [] → ' ' ∉ pat → pat <:+: lineStep s → pat <:+: s := by
  cases e : linesOf s with
  | nil =>
    rw [lineStep_eq_nil e]
    refine ⟨h, ?_, fun pat _ _ hi => hi⟩
    exact no_nl_of_stripped_single h.1 h.2 (by rw [e]; simp)
  | cons l0 rest =>
    cases rest with
    | nil =>
      rw [lineStep_eq_one e]
      refine ⟨h, ?_, fun pat _ _ hi => hi⟩
      exact no_nl_of_stripped_single h.1 h.2 (by rw [e]; simp)
    | cons l1 ls =>
      rw [lineStep_eq_two e]
      have hmem : ∀ l ∈ linesOf s, Stripped l ∧ l ≠ [] ∧ '\n' ∉ l ∧ l <:+: s :=
        fun l hl => linesOf_mem hl
      by_cases hc :
          (containsSub "SELECT".data (upperL l0) &&
            containsSub "FROM".data (upperL l0)) = true
      · rw [if_pos hc]
        have h0 := hmem l0 (by rw [e]; exact List.mem_cons_self _ _)
        exact ⟨h0.1, h0.2.2.1, fun pat _ _ hi => hi.trans h0.2.2.2⟩
      · rw [if_neg hc]
        have hin : ∀ l ∈ l0 :: l1 :: ls, Stripped l ∧ l ≠ [] := by
          intro l hl
          have hf := hmem l (by rw [e]; exact hl)
          exact ⟨hf.1, hf.2.1⟩
        refine ⟨joinSp_stripped hin, ?_, ?_⟩
        · intro hm
          rcases mem_joinSp hm with hsp | ⟨l, hl, hcl⟩
          · exact absurd hsp (by decide)
          · exact (hmem l (by rw [e]; exact hl)).2.2.1 hcl
        · intro pat hne hsp hi
          obtain ⟨l, hl, hil⟩ := part_joinSp hne hsp hi
          exact hil.trans (hmem l (by rw [e]; exact hl)).2.2.2

theorem semiStep_stripped (s : List Char) : Stripped (semiStep s) := by
  unfold semiStep
  exact stripped_pyStrip _

theorem semiStep_part (s : List Char) : semiStep s <:+: s := by
  unfold semiStep rstripSemi
  exact (pyStrip_part _).trans (rdropP_pre _ _).isInfix

theorem cleanNoFix_inv (raw : List Char) :
    Stripped (cleanNoFix raw) ∧ '\n' ∉ cleanNoFix raw ∧
      ¬ "```".data <:+: cleanNoFix raw := by
  have h1s : Stripped (fenceStep (pyStrip raw)) := fenceStep_stripped _
  have h1t : ¬ "```".data <:+: fenceStep (pyStrip raw) := fenceStep_no_ticks _
  have h2s : Stripped (labelStep (fenceStep (pyStrip raw))) := labelStep_stripped h1s
  have h2t : ¬ "```".data <:+: labelStep (fenceStep (pyStrip raw)) :=
    fun hh => h1t (hh.trans (labelStep_part _))
  have h3s : Stripped (proseStep (labelStep (fenceStep (pyStrip raw)))) :=
    proseStep_stripped h2s
  have h3t : ¬ "```".data <:+: proseStep (labelStep (fenceStep (pyStrip raw))) :=
    fun hh => h2t (hh.trans (proseStep_part _))
  obtain ⟨h4s, h4n, h4tr⟩ := lineStep_facts h3s
  have h4t : ¬ "```".data <:+:
      lineStep (proseStep (labelStep (fenceStep (pyStrip raw)))) :=
    fun hh => h3t (h4tr _ (by decide) (by decide) hh)
  refine ⟨semiStep_stripped _, ?_, ?_⟩
  · intro hm
    exact h4n ((semiStep_part _).subset hm)
  · intro hh
    exact h4t (hh.trans (semiStep_part _))

theorem buildFrom_assoc (before after : List Char) :
    before ++ " FROM ".data ++ dataT ++ " ".data ++ after =
      before ++ ' ' :: ("FROM".data ++ ' ' :: ("data".data ++ ' ' :: after)) := by
  simp only [show " FROM ".data = ' ' :: ("FROM".data ++ [' ']) by decide,
    show " ".data = [' '] by decide, dataT, List.append_assoc, List.cons_append,
    List.singleton_append, List.nil_append]

theorem fixFrom_inv {s : List Char} (hs : Stripped s) (hnl : '\n' ∉ s)
    (ht : ¬ "```".data <:+: s) :
    Stripped (fixFrom dataT s) ∧ '\n' ∉ fixFrom dataT s ∧
      ¬ "```".data <:+: fixFrom dataT s := by
  unfold fixFrom
  split
  · refine ⟨stripped_pyStrip _, ?_, ?_⟩
    · intro hm
      have hm2 := (pyStrip_part _).subset hm
      rw [buildFrom_assoc] at hm2
      rcases List.mem_append.mp hm2 with hb | hrest
      · exact hnl ((List.take_subset _ _) ((pyStrip_part _).subset hb))
      · rcases List.mem_cons.mp hrest with hsp | hrest2
        · exact absurd hsp (by decide)
        · rcases List.mem_append.mp hrest2 with hf | hrest3
          · exact absurd hf (by decide)
          · rcases List.mem_cons.mp hrest3 with hsp | hrest4
            · exact absurd hsp (by decide)
            · rcases List.mem_append.mp hrest4 with hd | hrest5
              · exact absurd hd (by decide)
              · rcases List.mem_cons.mp hrest5 with hsp | ha
                · exact absurd hsp (by decide)
                · exact hnl ((List.drop_subset _ _) ((pyStrip_part _).subset ha))
    · intro hh
      have h2 := hh.trans (pyStrip_part _)
      rw [buildFrom_assoc] at h2
      have hne : "```".data ≠ [] := by decide
      have hsp : ' ' ∉ "```".data := by decide
      rcases (part_append_sep_iff hne hsp).mp h2 with hb | h3
      · exact ht (hb.trans ((pyStrip_part _).trans ( List.take_prefix _ _).isInfix))
      · rcases (part_append_sep_iff hne hsp).mp h3 with hf | h4
        · exact containsSub_eq_false_iff.mp (by decide) hf
        · rcases (part_append_sep_iff hne hsp).mp h4 with hd | h5
          · exact containsSub_eq_false_iff.mp (by decide) hd
          · exact ht (h5.trans ((pyStrip_part _).trans (List.drop_suffix _ _).isInfix))
  · exact ⟨hs, hnl, ht⟩

theorem cleanSql_inv (raw : List Char) :
    Stripped (cleanSql dataT raw) ∧ '\n' ∉ cleanSql dataT raw ∧
      ¬ "```".data <:+: cleanSql dataT raw := by
  obtain ⟨h1, h2, h3⟩ := cleanNoFix_inv raw
  exact fixFrom_inv h1 h2 h3


/-! ## Second-pass no-op lemmas -/

theorem fenceStep_noop {s : List Char} (hs : Stripped s)
    (ht : ¬ "```".data <:+: s) : fenceStep s = s := by
  unfold fenceStep
  have hsql : ¬ "```sql".data <:+: s := fun hh =>
    ht ((List.IsPrefix.isInfix
      (⟨"sql".data, by decide⟩ : "```".data <+: "```sql".data)).trans hh)
  have hSQL : ¬ "```SQL".data <:+: s := fun hh =>
    ht ((List.IsPrefix.isInfix
      (⟨"SQL".data, by decide⟩ : "```".data <+: "```SQL".data)).trans hh)
  rw [removeAll_of_not_contains hsql, removeAll_of_not_contains hSQL,
      removeAll_of_not_contains ht, pyStrip_eq_self hs]

theorem labelStep_noop {s : List Char}
    (h : "SELECT".data.isPrefixOf (upperL s) = true) : labelStep s = s := by
  unfold labelStep
  have hq : ¬ ("SQL:".data.isPrefixOf (upperL s) = true) := by
    intro hq
    have h1 := List.isPrefixOf_iff_prefix.mp hq
    have h2 := List.isPrefixOf_iff_prefix.mp h
    have h3 := List.prefix_of_prefix_length_le h1 h2 (by decide)
    have h4 : "SQL:".data.isPrefixOf "SELECT".data = true :=
      List.isPrefixOf_iff_prefix.mpr h3
    exact absurd h4 (by decide)
  rw [if_neg hq]

theorem proseStep_noop {s : List Char}
    (h : "SELECT".data.isPrefixOf (upperL s) = true) : proseStep s = s := by
  have hz := firstIdx?_eq_zero_of_isPrefixOf (by decide) h
  rw [proseStep_eq_some hz, List.drop_zero]

theorem lineStep_noop {s : List Char} (hs : Stripped s) (hnl : '\n' ∉ s)
    (hne : s ≠ []) : lineStep s = s := by
  have hone : linesOf s = [s] := by
    unfold linesOf
    rw [splitNl_of_no_nl hnl]
    simp [pyStrip_eq_self hs, List.filter_cons, List.isEmpty_iff, hne]
  rw [lineStep_eq_one hone]

theorem semiStep_noop {s : List Char} (hs : Stripped s)
    (hsemi : s.getLast? ≠ some ';') : semiStep s = s := by
  unfold semiStep
  have h1 : rstripSemi s = s := by
    unfold rstripSemi
    apply rdropP_eq_self
    intro c hc
    apply decide_eq_false
    intro heq
    exact hsemi (heq ▸ hc)
  rw [h1, pyStrip_eq_self hs]

theorem fixFrom_noop {table s : List Char}
    (h : containsSub "FROM".data (upperL s) = true) : fixFrom table s = s := by
  unfold fixFrom
  have hc : (containsSub "SELECT".data (upperL s) &&
      !containsSub "FROM".data (upperL s)) ≠ true := by
    rw [h]
    simp
  rw [if_neg hc]

/-- C4 counterexample: the provider reply `select x from t; ;` is cleaned
to `select x from t;` (the `rstrip(';')` stops at the interior space and
the final `strip()` re-exposes a semicolon), and a second run of the
pipeline strips further, so post-processing is not idempotent on every
reply as the claim states. -/
theorem C4_counterexample :
    cleanSql dataT (cleanSql dataT "select x from t; ;".data) ≠
      cleanSql dataT "select x from t; ;".data := by decide

/-- C4 (amended): the post-processing pipeline of `generate_sql_query`
is idempotent on every provider reply whose single-pass output passes
the final validation (begins with `SELECT` case-insensitively and
contains `FROM`) and does not end with a `;`. -/
theorem C4_pipeline_idem (raw : List Char)
    (h1 : "SELECT".data.isPrefixOf (upperL (cleanSql dataT raw)) = true)
    (h2 : containsSub "FROM".data (upperL (cleanSql dataT raw)) = true)
    (h3 : (cleanSql dataT raw).getLast? ≠ some ';') :
    cleanSql dataT (cleanSql dataT raw) = cleanSql dataT raw := by
  obtain ⟨hs, hnl, ht⟩ := cleanSql_inv raw
  have hne : cleanSql dataT raw ≠ [] := by
    intro hq
    rw [hq] at h1
    exact absurd h1 (by decide)
  rw [show cleanSql dataT (cleanSql dataT raw) =
        fixFrom dataT (semiStep (lineStep (proseStep (labelStep
          (fenceStep (pyStrip (cleanSql dataT raw))))))) from rfl,
      pyStrip_eq_self hs, fenceStep_noop hs ht, labelStep_noop h1, proseStep_noop h1,
      lineStep_noop hs hnl hne, semiStep_noop hs h3, fixFrom_noop h2]

/-- C4 witness: a concrete reply whose cleaned form passes validation
and carries no trailing terminator; the pipeline is idempotent on it. -/
theorem C4_witness :
    cleanSql dataT (cleanSql dataT "SELECT a FROM t".data) =
      cleanSql dataT "SELECT a FROM t".data :=
  C4_pipeline_idem "SELECT a FROM t".data (by decide) (by decide) (by decide)


/-! ## Claim C3: replies without a retrieval keyword -/

theorem upperL_joinSp (L : List (List Char)) : upperL (joinSp L) = joinSp (L.map upperL) := by
  induction L with
  | nil => rfl
  | cons a L' ih =>
    cases L' with
    | nil => rfl
    | cons b L'' =>
      show upperL (a ++ ' ' :: joinSp (b :: L'')) =
        upperL a ++ ' ' :: joinSp ((b :: L'').map upperL)
      rw [upperL_append, ← ih]
      rw [show upperL (' ' :: joinSp (b :: L'')) =
        pyUpperChar ' ' :: upperL (joinSp (b :: L'')) from rfl]
      rw [show pyUpperChar ' ' = ' ' by decide]

theorem lineStep_cases (s : List Char) :
    lineStep s = s ∨ (∃ l ∈ linesOf s, lineStep s = l) ∨
      lineStep s = joinSp (linesOf s) := by
  cases e : linesOf s with
  | nil => exact Or.inl (lineStep_eq_nil e)
  | cons l0 rest =>
    cases rest with
    | nil => exact Or.inl (lineStep_eq_one e)
    | cons l1 ls =>
      rw [lineStep_eq_two e]
      by_cases hc :
          (containsSub "SELECT".data (upperL l0) &&
            containsSub "FROM".data (upperL l0)) = true
      · rw [if_pos hc]
        refine Or.inr (Or.inl ⟨l0, ?_, rfl⟩)
        exact List.mem_cons_self _ _
      · rw [if_neg hc]
        rw [← e]
        exact Or.inr (Or.inr rfl)

theorem select_free_cleanNoFix {raw : List Char}
    (h : ¬ "SELECT".data <:+: upperL (fenceStep (pyStrip raw))) :
    ¬ "SELECT".data <:+: upperL (cleanNoFix raw) := by
  have h2 : ¬ "SELECT".data <:+: upperL (labelStep (fenceStep (pyStrip raw))) :=
    fun hh => h (hh.trans (upperL_part (labelStep_part _)))
  have h3 : ¬ "SELECT".data <:+:
      upperL (proseStep (labelStep (fenceStep (pyStrip raw)))) :=
    fun hh => h2 (hh.trans (upperL_part (proseStep_part _)))
  have h4 : ¬ "SELECT".data <:+:
      upperL (lineStep (proseStep (labelStep (fenceStep (pyStrip raw))))) := by
    intro hh
    rcases lineStep_cases (proseStep (labelStep (fenceStep (pyStrip raw)))) with
      hcase | ⟨l, hl, hcase⟩ | hcase
    · rw [hcase] at hh
      exact h3 hh
    · rw [hcase] at hh
      exact h3 (hh.trans (upperL_part (linesOf_mem hl).2.2.2))
    · rw [hcase, upperL_joinSp] at hh
      obtain ⟨ul, hul, hinf⟩ := part_joinSp (by decide) (by decide) hh
      obtain ⟨l, hl, rfl⟩ := List.mem_map.mp hul
      exact h3 (hinf.trans (upperL_part (linesOf_mem hl).2.2.2))
  intro hh
  exact h4 (hh.trans (upperL_part (semiStep_part _)))

theorem validateSql_error_select {q : List Char}
    (h : "SELECT".data.isPrefixOf (upperL q) = false) :
    validateSql q = .error ("Generated invalid SQL query: ".data ++ q) := by
  unfold validateSql
  rw [h]
  rfl

/-- C3 counterexample: the reply `sel‍```‍ect * from t` (fence markers in
the middle of the word) contains no occurrence of `SELECT` in any letter
case, yet fence removal glues one together and `generate_sql_query`
returns the query instead of raising. -/
theorem C3_counterexample :
    containsSub "SELECT".data (upperL "sel```ect * from t".data) = false ∧
      generate_sql_query_post dataT "sel```ect * from t".data =
        .ok "select * from t".data := by
  constructor
  · decide
  · rfl

/-- C3 (amended): for every provider reply whose fence-stripped text
contains no retrieval keyword (no occurrence of `SELECT` in any letter
case after code-fence removal), `generate_sql_query` raises the
synthesis error `Generated invalid SQL query: ...` carrying the cleaned
offending text, wrapped by the outer handler, rather than returning the
prose as a query. -/
theorem C3_no_select_raises (raw : List Char)
    (h : containsSub "SELECT".data (upperL (fenceStep (pyStrip raw))) = false) :
    generate_sql_query_post dataT raw =
      .error ("Error generating SQL query: ".data ++
        ("Generated invalid SQL query: ".data ++ cleanSql dataT raw)) := by
  have hfree := select_free_cleanNoFix (containsSub_eq_false_iff.mp h)
  have hcondF : containsSub "SELECT".data (upperL (cleanNoFix raw)) = false :=
    containsSub_eq_false_iff.mpr hfree
  have hfix : cleanSql dataT raw = cleanNoFix raw := by
    unfold cleanSql fixFrom
    rw [hcondF]
    simp
  have hpre : "SELECT".data.isPrefixOf (upperL (cleanSql dataT raw)) = false := by
    cases e : "SELECT".data.isPrefixOf (upperL (cleanSql dataT raw)) with
    | false => rfl
    | true =>
      rw [hfix] at e
      exact absurd (( List.isPrefixOf_iff_prefix.mp e).isInfix) hfree
  unfold generate_sql_query_post
  rw [validateSql_error_select hpre]

/-- C3 witness: a pure-prose reply is rejected with the typed error. -/
theorem C3_witness :
    containsSub "SELECT".data (upperL (fenceStep (pyStrip "show me the data".data))) =
        false ∧
      generate_sql_query_post dataT "show me the data".data =
        .error ("Error generating SQL query: ".data ++
          ("Generated invalid SQL query: ".data ++
            cleanSql dataT "show me the data".data)) :=
  ⟨by decide, C3_no_select_raises "show me the data".data (by decide)⟩


/-! ## Claim C9: the FROM checks are substring checks -/

/-- C9: for every cleaned provider reply whose uppercased text contains
the substring `FROM` anywhere — also inside an identifier — the
source-clause injection step of `generate_sql_query` is skipped (the
reply passes through unchanged) and, as soon as the reply also starts
with `SELECT` case-insensitively, the final validation accepts it; both
checks are case-insensitive substring checks, not token-level checks. -/
theorem C9_from_substring_check (s : List Char)
    (hfrom : containsSub "FROM".data (upperL s) = true) :
    fixFrom dataT s = s ∧
      ("SELECT".data.isPrefixOf (upperL s) = true → validateSql s = .ok s) := by
  refine ⟨fixFrom_noop hfrom, fun hsel => ?_⟩
  unfold validateSql
  rw [hsel, hfrom]
  rfl

/-- C9 witness: `select fromage` has `FROM` only inside the identifier
`fromage`, yet injection is skipped and validation accepts it. -/
theorem C9_witness :
    fixFrom dataT "select fromage".data = "select fromage".data ∧
      validateSql "select fromage".data = .ok "select fromage".data := by
  have h := C9_from_substring_check "select fromage".data (by decide)
  exact ⟨h.1, h.2 (by decide)⟩

/-! ## Claim C2: position of the injected FROM clause -/

theorem ipStep_le (u : List Char) (ip : Nat) (k : List Char) : ipStep u ip k ≤ ip := by
  unfold ipStep
  cases e : firstIdx? k u with
  | none => exact Nat.le_refl ip
  | some p =>
    show (if p < ip then p else ip) ≤ ip
    by_cases hp : p < ip
    · rw [if_pos hp]
      omega
    · rw [if_neg hp]

theorem ipStep_le_idx (u : List Char) (ip : Nat) (k : List Char) {p : Nat}
    (e : firstIdx? k u = some p) : ipStep u ip k ≤ p := by
  unfold ipStep
  rw [e]
  show (if p < ip then p else ip) ≤ p
  by_cases hp : p < ip
  · rw [if_pos hp]
  · rw [if_neg hp]
    omega

theorem foldl_ipStep_le (u : List Char) (ks : List (List Char)) (acc : Nat) :
    ks.foldl (ipStep u) acc ≤ acc := by
  induction ks generalizing acc with
  | nil => exact Nat.le_refl _
  | cons k0 ks ih =>
    rw [List.foldl_cons]
    exact Nat.le_trans (ih _) (ipStep_le ..)

theorem foldl_ipStep_le_idx (u : List Char) (ks : List (List Char)) (acc : Nat)
    {k : List Char} {p : Nat} (hk : k ∈ ks) (e : firstIdx? k u = some p) :
    ks.foldl (ipStep u) acc ≤ p := by
  induction ks generalizing acc with
  | nil => cases hk
  | cons k0 ks ih =>
    rw [List.foldl_cons]
    rcases List.mem_cons.mp hk with rfl | hk'
    · exact Nat.le_trans (foldl_ipStep_le ..) (ipStep_le_idx _ _ _ e)
    · exact ih _ hk'

theorem foldl_ipStep_cases (u : List Char) (ks : List (List Char)) (acc : Nat) :
    ks.foldl (ipStep u) acc = acc ∨
      ∃ k ∈ ks, firstIdx? k u = some (ks.foldl (ipStep u) acc) := by
  induction ks generalizing acc with
  | nil => exact Or.inl rfl
  | cons k0 ks ih =>
    rw [List.foldl_cons]
    rcases ih (ipStep u acc k0) with h | ⟨k, hk, hke⟩
    · rw [h]
      cases e : firstIdx? k0 u with
      | none =>
        left
        show ipStep u acc k0 = acc
        unfold ipStep
        rw [e]
      | some p =>
        have hstep : ipStep u acc k0 = if p < acc then p else acc := by
          unfold ipStep
          rw [e]
        by_cases hp : p < acc
        · right
          refine ⟨k0, List.mem_cons_self _ _, ?_⟩
          rw [hstep, if_pos hp, e]
        · left
          rw [hstep, if_neg hp]
    · exact Or.inr ⟨k, List.mem_cons_of_mem _ hk, hke⟩

theorem foldl_ipStep_none (u : List Char) (ks : List (List Char)) (acc : Nat)
    (h : ∀ k ∈ ks, firstIdx? k u = none) : ks.foldl (ipStep u) acc = acc := by
  induction ks generalizing acc with
  | nil => rfl
  | cons k0 ks ih =>
    rw [List.foldl_cons,
        show ipStep u acc k0 = acc from by
          unfold ipStep
          rw [h k0 (List.mem_cons_self _ _)]]
    exact ih _ (fun k hk => h k (List.mem_cons_of_mem _ hk))

theorem insertPos_spec_occurs {u k0 : List Char} {j : Nat}
    (hk : k0 ∈ kwList) (hj : k0.isPrefixOf (u.drop j) = true) :
    KwAt u (insertPos u) ∧ ∀ j' < insertPos u, ¬ KwAt u j' := by
  obtain ⟨i0, hi0, hi0le⟩ := firstIdx?_le_of_isPrefixOf hj
  have hle : insertPos u ≤ i0 := foldl_ipStep_le_idx u kwList u.length hk hi0
  rcases foldl_ipStep_cases u kwList u.length with hcase | ⟨k1, hk1, hke⟩
  · exfalso
    have hne : k0 ≠ [] := by
      have hall : ∀ k ∈ kwList, k ≠ [] := by decide
      exact hall k0 hk
    have hp0 := (firstIdx?_spec hi0).1
    have hlt : i0 < u.length := by
      by_contra hge
      push_neg at hge
      rw [List.drop_eq_nil_of_le hge] at hp0
      cases k0 with
      | nil => exact hne rfl
      | cons a b => simp [List.isPrefixOf] at hp0
    have : insertPos u = u.length := hcase
    omega
  · have hocc := (firstIdx?_spec hke).1
    refine ⟨⟨k1, hk1, hocc⟩, ?_⟩
    rintro j' hj' ⟨k2, hk2, hpk2⟩
    obtain ⟨i2, hi2, hi2le⟩ := firstIdx?_le_of_isPrefixOf hpk2
    have h3 := foldl_ipStep_le_idx u kwList u.length hk2 hi2
    have hfold : List.foldl (ipStep u) u.length kwList = insertPos u := rfl
    omega

theorem insertPos_eq_len_of_no_kw {u : List Char} (h : ∀ j, ¬ KwAt u j) :
    insertPos u = u.length := by
  apply foldl_ipStep_none
  intro k hk
  rw [firstIdx?_eq_none_iff]
  intro j hpf
  exact h j ⟨k, hk, hpf⟩

theorem fixFrom_eq_inject {table s : List Char}
    (hsel : containsSub "SELECT".data (upperL s) = true)
    (hfrom : containsSub "FROM".data (upperL s) = false) :
    fixFrom table s =
      pyStrip (pyStrip (s.take (insertPos (upperL s))) ++ " FROM ".data ++ table
        ++ " ".data ++ pyStrip (s.drop (insertPos (upperL s)))) := by
  unfold fixFrom
  rw [hsel, hfrom]
  rfl

/-- C2 counterexample: the cleaned reply `where x` lacks a source clause
and contains the keyword `WHERE`, yet `generate_sql_query` splices
nothing (the injection also requires a `SELECT`, absent here): the
pipeline leaves the reply unchanged, with no `FROM` in it. -/
theorem C2_counterexample :
    containsSub "FROM".data (upperL "where x".data) = false ∧
      containsSub "WHERE".data (upperL "where x".data) = true ∧
      cleanSql dataT "where x".data = "where x".data := by
  exact ⟨by decide, by decide, by decide⟩

/-- C2 (amended): for every cleaned provider reply that contains a
retrieval keyword (`SELECT`) but no source clause (no `FROM`,
case-insensitively): if at least one of the keywords `WHERE`, `GROUP BY`,
`HAVING`, `ORDER BY`, `LIMIT` occurs, the repair step splices
`FROM <table_name>` immediately before the keyword occurrence at the
earliest position of the string (stripping whitespace around the cut);
if none occurs, `FROM <table_name>` is appended at the end. -/
theorem C2_inject_position (s : List Char)
    (hsel : containsSub "SELECT".data (upperL s) = true)
    (hfrom : containsSub "FROM".data (upperL s) = false) :
    ((∃ j, KwAt (upperL s) j) →
      KwAt (upperL s) (insertPos (upperL s)) ∧
      (∀ j < insertPos (upperL s), ¬ KwAt (upperL s) j) ∧
      fixFrom dataT s =
        pyStrip (pyStrip (s.take (insertPos (upperL s))) ++ " FROM ".data ++ dataT
          ++ " ".data ++ pyStrip (s.drop (insertPos (upperL s))))) ∧
    ((∀ j, ¬ KwAt (upperL s) j) →
      fixFrom dataT s = pyStrip (pyStrip s ++ " FROM ".data ++ dataT ++ " ".data)) := by
  constructor
  · rintro ⟨j, k0, hk0, hp⟩
    obtain ⟨hocc, hmin⟩ := insertPos_spec_occurs hk0 hp
    exact ⟨hocc, hmin, fixFrom_eq_inject hsel hfrom⟩
  · intro h
    rw [fixFrom_eq_inject hsel hfrom, insertPos_eq_len_of_no_kw h, upperL_length,
        List.take_length, List.drop_length,
        show pyStrip ([] : List Char) = [] from rfl, List.append_nil]

/-- C2 witness: for `select a where x` the clause is spliced exactly
before the `WHERE` at position 9. -/
theorem C2_witness :
    KwAt (upperL "select a where x".data) (insertPos (upperL "select a where x".data)) ∧
      (∀ j < insertPos (upperL "select a where x".data),
        ¬ KwAt (upperL "select a where x".data) j) ∧
      fixFrom dataT "select a where x".data =
        pyStrip (pyStrip ("select a where x".data.take
            (insertPos (upperL "select a where x".data))) ++ " FROM ".data ++ dataT
          ++ " ".data ++ pyStrip ("select a where x".data.drop
            (insertPos (upperL "select a where x".data)))) :=
  (C2_inject_position "select a where x".data (by decide) (by decide)).1
    ⟨9, "WHERE".data, by decide, by decide⟩


/-! ## Claim C1: the table name as source reference -/

theorem validateSql_eq_ok {q r : List Char} (h : validateSql q = .ok r) :
    r = q ∧ "SELECT".data.isPrefixOf (upperL q) = true ∧
      containsSub "FROM".data (upperL q) = true := by
  unfold validateSql at h
  cases e1 : "SELECT".data.isPrefixOf (upperL q) with
  | false => rw [e1] at h; simp at h
  | true =>
    rw [e1] at h
    cases e2 : containsSub "FROM".data (upperL q) with
    | false => rw [e2] at h; simp at h
    | true =>
      rw [e2] at h
      simp at h
      exact ⟨h.symm, rfl, rfl⟩

theorem genPost_ok {table raw q : List Char}
    (h : generate_sql_query_post table raw = .ok q) :
    validateSql (cleanSql table raw) = .ok q := by
  unfold generate_sql_query_post at h
  cases e : validateSql (cleanSql table raw) with
  | ok r =>
    rw [e] at h
    simp at h
    rw [h]
  | error err =>
    rw [e] at h
    simp at h

theorem upperL_sep (x y : List Char) (c : Char) :
    upperL (x ++ c :: y) = upperL x ++ pyUpperChar c :: upperL y := by
  simp [upperL]

theorem upperL_cons (c : Char) (y : List Char) :
    upperL (c :: y) = pyUpperChar c :: upperL y := rfl

theorem from_pat_nonspace : ∀ c ∈ "FROM".data, pyIsSpace c = false := by decide

theorem cleanSql_eq_cleanNoFix_of_noSelect {raw : List Char}
    (h : containsSub "SELECT".data (upperL (cleanNoFix raw)) = false) :
    cleanSql dataT raw = cleanNoFix raw := by
  unfold cleanSql fixFrom
  rw [h]
  simp

/-- C1 counterexample: the reply `select a from b` is accepted by the
final validation unchanged, yet the table name `data` does not occur in
it at all — let alone exactly once after a `FROM`. -/
theorem C1_counterexample :
    generate_sql_query_post dataT "select a from b".data = .ok "select a from b".data ∧
      countOcc "DATA".data (upperL "select a from b".data) = 0 ∧
      countOcc "FROM DATA".data (upperL "select a from b".data) = 0 := by
  refine ⟨by rfl, by decide, by decide⟩

/-- C1 (amended): every query returned by `generate_sql_query` contains
the source keyword `FROM` (case-insensitively), but the table name is
not validated at all; when the reply before injection lacked a `FROM`,
the repair step introduces exactly one `FROM`, immediately followed by
the table name (`FROM data` occurs). -/
theorem C1_source_reference (raw q : List Char)
    (h : generate_sql_query_post dataT raw = .ok q) :
    containsSub "FROM".data (upperL q) = true ∧
      (containsSub "FROM".data (upperL (cleanNoFix raw)) = false →
        countOcc "FROM".data (upperL q) = 1 ∧
        containsSub "FROM DATA".data (upperL q) = true) := by
  obtain ⟨hq, hsel, hfrom⟩ := validateSql_eq_ok (genPost_ok h)
  rw [hq]
  refine ⟨hfrom, ?_⟩
  intro hnofix
  have hselC : containsSub "SELECT".data (upperL (cleanNoFix raw)) = true := by
    cases e : containsSub "SELECT".data (upperL (cleanNoFix raw)) with
    | true => rfl
    | false =>
      rw [cleanSql_eq_cleanNoFix_of_noSelect e] at hfrom
      rw [hfrom] at hnofix
      cases hnofix
  have hinj := @fixFrom_eq_inject dataT (cleanNoFix raw) hselC hnofix
  have hcs : cleanSql dataT raw =
      pyStrip (pyStrip ((cleanNoFix raw).take (insertPos (upperL (cleanNoFix raw))))
        ++ " FROM ".data ++ dataT ++ " ".data
        ++ pyStrip ((cleanNoFix raw).drop (insertPos (upperL (cleanNoFix raw))))) := hinj
  have hnf := containsSub_eq_false_iff.mp hnofix
  have hbefore : ¬ "FROM".data <:+:
      upperL (pyStrip ((cleanNoFix raw).take (insertPos (upperL (cleanNoFix raw))))) := by
    intro hi
    exact hnf (hi.trans (upperL_part
      ((pyStrip_part _).trans ( List.take_prefix _ _).isInfix)))
  have hafter : ¬ "FROM".data <:+:
      upperL (pyStrip ((cleanNoFix raw).drop (insertPos (upperL (cleanNoFix raw))))) := by
    intro hi
    exact hnf (hi.trans (upperL_part
      ((pyStrip_part _).trans (List.drop_suffix _ _).isInfix)))
  have hE : upperL (pyStrip ((cleanNoFix raw).take (insertPos (upperL (cleanNoFix raw))))
        ++ " FROM ".data ++ dataT ++ " ".data
        ++ pyStrip ((cleanNoFix raw).drop (insertPos (upperL (cleanNoFix raw))))) =
      upperL (pyStrip ((cleanNoFix raw).take (insertPos (upperL (cleanNoFix raw)))))
        ++ ' ' :: ("FROM".data ++ ' ' :: ("DATA".data
        ++ ' ' :: upperL (pyStrip ((cleanNoFix raw).drop
            (insertPos (upperL (cleanNoFix raw))))))) := by
    rw [buildFrom_assoc]
    simp only [upperL_sep, upperL_append, upperL_cons,
      show pyUpperChar ' ' = ' ' by decide, show pyUpperChar 'F' = 'F' by decide,
      show pyUpperChar 'R' = 'R' by decide, show pyUpperChar 'O' = 'O' by decide,
      show pyUpperChar 'M' = 'M' by decide, show pyUpperChar 'd' = 'D' by decide,
      show pyUpperChar 'a' = 'A' by decide, show pyUpperChar 't' = 'T' by decide,
      show upperL [] = [] from rfl]
  constructor
  · rw [hcs, ← pyStrip_upperL,
        countOcc_pyStrip (by decide) from_pat_nonspace, hE,
        countOcc_append_sep (by decide) (by decide),
        countOcc_append_sep (by decide) (by decide),
        countOcc_append_sep (by decide) (by decide),
        (countOcc_eq_zero_iff (by decide)).mpr hbefore,
        (countOcc_eq_zero_iff (by decide)).mpr hafter]
    decide
  · rw [hcs, ← pyStrip_upperL]
    rw [containsSub_iff_part]
    rw [part_pyStrip_iff (show "FROM DATA".data = 'F' :: "ROM DATA".data by decide)
        (by decide) (show ("FROM DATA".data).getLast? = some 'A' by decide) (by decide)]
    rw [hE]
    refine ⟨upperL (pyStrip ((cleanNoFix raw).take
        (insertPos (upperL (cleanNoFix raw))))) ++ [' '],
      ' ' :: upperL (pyStrip ((cleanNoFix raw).drop
        (insertPos (upperL (cleanNoFix raw))))), ?_⟩
    rw [show "FROM DATA".data = "FROM".data ++ ' ' :: "DATA".data by decide]
    simp [List.append_assoc]

/-- C1 witness: the reply `select a where x` has no source clause, so
the repair injects one; the accepted query contains exactly one `FROM`,
followed by the table name. -/
theorem C1_witness :
    containsSub "FROM".data
        (upperL (cleanSql dataT "select a where x".data)) = true ∧
      countOcc "FROM".data (upperL (cleanSql dataT "select a where x".data)) = 1 ∧
      containsSub "FROM DATA".data
        (upperL (cleanSql dataT "select a where x".data)) = true := by
  have h := C1_source_reference "select a where x".data
    (cleanSql dataT "select a where x".data) (by rfl)
  exact ⟨h.1, h.2 (by decide)⟩


/-! ## Claim C5: provider fallback policy -/

theorem tryFallbacks_none {ap : List Char} {l : List (List Char × Provider)}
    (h : ∀ x ∈ l, fallbackFails ap x) : tryFallbacks ap l = none := by
  induction l with
  | nil => rfl
  | cons x l ih =>
    obtain ⟨n, p⟩ := x
    have hx := h _ (List.mem_cons_self _ _)
    have hrest : tryFallbacks ap l = none :=
      ih (fun y hy => h y (List.mem_cons_of_mem _ hy))
    show tryFallbacks ap ((n, p) :: l) = none
    unfold tryFallbacks
    by_cases hn : n = ap
    · rw [if_pos hn]
      exact hrest
    · rw [if_neg hn]
      rcases hx with hact | hfail
      · exact absurd hact hn
      · cases e : p.models with
        | nil => exact hrest
        | cons m ms =>
          obtain ⟨err, herr⟩ := hfail m ms e
          have herr2 : p.call m = Except.error err := herr
          show (match p.call m with
                | Except.ok r => some r
                | Except.error _ => tryFallbacks ap l) = none
          rw [herr2]
          exact hrest

theorem tryFallbacks_first_success {ap : List Char}
    {pre : List (List Char × Provider)} {n : List Char} {pr : Provider}
    {post : List (List Char × Provider)} {m : List Char} {ms : List (List Char)}
    {r : List Char} (hpre : ∀ x ∈ pre, fallbackFails ap x) (hn : n ≠ ap)
    (hm : pr.models = m :: ms) (hr : pr.call m = .ok r) :
    tryFallbacks ap (pre ++ (n, pr) :: post) = some r := by
  induction pre with
  | nil =>
    show tryFallbacks ap ((n, pr) :: post) = some r
    unfold tryFallbacks
    rw [if_neg hn, hm]
    show (match pr.call m with
          | Except.ok r => some r
          | Except.error _ => tryFallbacks ap post) = some r
    rw [hr]
  | cons x pre ih =>
    obtain ⟨n0, p0⟩ := x
    have hx := hpre _ (List.mem_cons_self _ _)
    have hrest : tryFallbacks ap (pre ++ (n, pr) :: post) = some r :=
      ih (fun y hy => hpre y (List.mem_cons_of_mem _ hy))
    show tryFallbacks ap ((n0, p0) :: (pre ++ (n, pr) :: post)) = some r
    unfold tryFallbacks
    by_cases hn0 : n0 = ap
    · rw [if_pos hn0]
      exact hrest
    · rw [if_neg hn0]
      rcases hx with hact | hfail
      · exact absurd hact hn0
      · cases e : p0.models with
        | nil => exact hrest
        | cons m0 ms0 =>
          obtain ⟨err, herr⟩ := hfail m0 ms0 e
          have herr2 : p0.call m0 = Except.error err := herr
          show (match p0.call m0 with
                | Except.ok r => some r
                | Except.error _ => tryFallbacks ap (pre ++ (n, pr) :: post)) = some r
          rw [herr2]
          exact hrest

/-- C5 counterexample: when every provider fails, the raised message
carries only the active provider's error `e1`; the fallback's error
`e2` is not aggregated into it, contrary to the claim. -/
theorem C5_counterexample :
    chat_completion cexClientC5 =
        .error "All AI providers failed. Last error: e1".data ∧
      containsSub "e2".data "All AI providers failed. Last error: e1".data = false := by
  exact ⟨by rfl, by decide⟩

/-- C5 (amended): with an active provider set and registered, a
successful active call is returned directly; if the active call fails
with error `e`, the client walks every other registered provider in
registration order using that provider's first available model and
returns the first success; if every provider fails (or is the active
one, or has no models), it raises `All AI providers failed. Last
error: e`, carrying only the active provider's error — fallback errors
are logged, not aggregated. -/
theorem C5_fallback_policy (c : UClient) (ap : List Char) (p : Provider)
    (h1 : c.activeProvider = some ap) (h2 : findClient c.clients ap = some p) :
    (∀ r, p.call c.activeModel = .ok r → chat_completion c = .ok r) ∧
    (∀ e, p.call c.activeModel = .error e →
      ((∀ x ∈ c.clients, fallbackFails ap x) →
        chat_completion c =
          .error ("All AI providers failed. Last error: ".data ++ e)) ∧
      (∀ pre n pr post m ms r, c.clients = pre ++ (n, pr) :: post →
        (∀ x ∈ pre, fallbackFails ap x) → n ≠ ap → pr.models = m :: ms →
        pr.call m = .ok r → chat_completion c = .ok r)) := by
  have hcc : chat_completion c = chat_try c ap p := by
    unfold chat_completion
    rw [h1]
    show chat_afterActive c ap = chat_try c ap p
    unfold chat_afterActive
    rw [h2]
  constructor
  · intro r hr
    rw [hcc]
    unfold chat_try
    rw [hr]
  · intro e he
    constructor
    · intro hall
      rw [hcc]
      unfold chat_try
      rw [he]
      show (match tryFallbacks ap c.clients with
            | some r => Except.ok r
            | none =>
              Except.error ("All AI providers failed. Last error: ".data ++ e)) = _
      rw [tryFallbacks_none hall]
    · intro pre n pr post m ms r hcl hpre hn hm hr
      rw [hcc]
      unfold chat_try
      rw [he]
      show (match tryFallbacks ap c.clients with
            | some r => Except.ok r
            | none =>
              Except.error ("All AI providers failed. Last error: ".data ++ e)) = _
      rw [hcl, tryFallbacks_first_success hpre hn hm hr]

/-- C5 witness: the active provider fails and the first fallback
succeeds, so its reply is returned. -/
theorem C5_witness : chat_completion witClientC5 = .ok "hello".data :=
  ((C5_fallback_policy witClientC5 "a".data witProviderA rfl rfl).2 "e1".data rfl).2
    [("a".data, witProviderA)] "b".data witProviderB [] "m2".data [] "hello".data
    rfl
    (fun x hx => by
      rcases List.mem_singleton.mp hx with rfl
      exact Or.inl rfl)
    (by decide) rfl rfl

/-! ## Claim C6: execution errors carry the query text -/

/-- C6: if the relational engine rejects the query with the
pandas-style error (which embeds the query text), `execute_query`
raises `Error executing query: ...` whose message contains the original
query text, and the engine is consulted exactly once (no retry). -/
theorem C6_execution_error
    (engine : SqlConn → List Char → Except (List Char) DataFrame)
    (df : DataFrame) (q cause : List Char)
    (h : engine (to_sql "data".data df sqlite_connect_memory) q =
      .error (pandasEngineError q cause)) :
    (execute_query engine df q).1 =
        .error ("Error executing query: ".data ++ pandasEngineError q cause) ∧
      containsSub q
        ("Error executing query: ".data ++ pandasEngineError q cause) = true ∧
      (execute_query engine df q).2.2 = [q] := by
  refine ⟨?_, ?_, ?_⟩
  · unfold execute_query
    rw [h]
  · rw [containsSub_iff_part]
    refine ⟨"Error executing query: Execution failed on sql '".data,
      "': ".data ++ cause, ?_⟩
    unfold pandasEngineError
    rw [show "Error executing query: Execution failed on sql '".data =
        "Error executing query: ".data ++ "Execution failed on sql '".data by decide]
    simp [List.append_assoc]
  · unfold execute_query
    rw [h]

/-- C6 witness: a concrete engine rejecting an unknown column. -/
theorem C6_witness :
    (execute_query (fun _ q => .error (pandasEngineError q "no such column: x".data))
        ⟨["a".data], []⟩ "select x from data".data).1 =
      .error ("Error executing query: ".data ++
        pandasEngineError "select x from data".data "no such column: x".data) ∧
      containsSub "select x from data".data
        ("Error executing query: ".data ++
          pandasEngineError "select x from data".data "no such column: x".data) = true ∧
      (execute_query (fun _ q => .error (pandasEngineError q "no such column: x".data))
        ⟨["a".data], []⟩ "select x from data".data).2.2 =
        ["select x from data".data] :=
  C6_execution_error _ _ _ _ rfl

/-! ## Claim C7: interpretation failures are non-fatal -/

/-- C7: for every question, query and result table, if the provider
call inside `interpret_results` fails with any error, the function does
not propagate it: it returns the fixed fallback string of line 296
(carrying the error text), so the pipeline still delivers the query
results. -/
theorem C7_interpret_fallback (call : List Char → Except (List Char) (List Char))
    (query sqlq : List Char) (results : DataFrame) (e : List Char)
    (h : call (interpPrompt query sqlq results) = .error e) :
    interpret_results (some call) query sqlq results =
      "Results retrieved successfully, but couldn't generate interpretation: ".data
        ++ e := by
  unfold interpret_results
  show (match call (interpPrompt query sqlq results) with
        | Except.ok t => pyStrip t
        | Except.error err =>
          "Results retrieved successfully, but couldn't generate interpretation: ".data
            ++ err) = _
  rw [h]

/-- C7 witness: a timing-out interpretation call still yields the
fallback string. -/
theorem C7_witness :
    interpret_results (some (fun _ => .error "timeout".data))
        "how many rows".data "select count(*) from data".data ⟨[], []⟩ =
      "Results retrieved successfully, but couldn't generate interpretation: ".data
        ++ "timeout".data :=
  C7_interpret_fallback _ _ _ _ _ rfl

/-! ## Claim C10: execute_query leaves the dataframe unchanged -/

/-- C10: `execute_query` threads the input dataframe through unchanged
whether the engine succeeds or fails, submits exactly the one query to
the engine, and consults a connection freshly built from the dataframe
alone (the in-memory engine is created and discarded inside the call,
so no state survives between calls). -/
theorem C10_frame (engine : SqlConn → List Char → Except (List Char) DataFrame)
    (df : DataFrame) (q : List Char) :
    (execute_query engine df q).2.1 = df ∧
      (execute_query engine df q).2.2 = [q] ∧
      to_sql "data".data df sqlite_connect_memory = ⟨[("data".data, df)]⟩ ∧
      (execute_query engine df q).1 =
        match engine (to_sql "data".data df sqlite_connect_memory) q with
        | .ok r => .ok r
        | .error e => .error ("Error executing query: ".data ++ e) := by
  refine ⟨?_, ?_, rfl, ?_⟩
  · unfold execute_query
    cases engine (to_sql "data".data df sqlite_connect_memory) q <;> rfl
  · unfold execute_query
    cases engine (to_sql "data".data df sqlite_connect_memory) q <;> rfl
  · unfold execute_query
    cases engine (to_sql "data".data df sqlite_connect_memory) q <;> rfl

/-! ## Claim C8: column cleaning and type inference -/

theorem count_underscore_map (l : List Char) :
    List.count '_' (l.map (fun c => if c = ' ' then '_' else c)) =
      List.count '_' l + List.count ' ' l := by
  induction l with
  | nil => rfl
  | cons c r ih =>
    by_cases hc : c = ' '
    · subst hc
      simp only [List.map_cons, if_pos rfl, List.count_cons, ih]
      simp
      omega
    · simp only [List.map_cons, if_neg hc, List.count_cons, ih]
      have h1 : (c == ' ') = false := by
        rw [beq_eq_false_iff_ne]
        exact hc
      simp [h1]
      omega

/-- C8 counterexample: the column name `a%b` is cleaned to `ab` — the
`%` is deleted by the regex replacement, not normalized to an
underscore as the claim states. -/
theorem C8_counterexample :
    cleanColName "a%b".data = "ab".data ∧ "ab".data ≠ "a_b".data := by
  exact ⟨by decide, by decide⟩

/-- C8 (amended): a column name is stripped of surrounding whitespace,
its spaces become underscores (their count is preserved), and every
other non-alphanumeric, non-underscore character is removed, so the
cleaned name consists of word characters only; a column whose name
contains `date` case-insensitively is parsed as dates, and an object
column whose values all parse numerically is coerced to numbers. -/
theorem C8_preprocess (name : List Char) (d : Dtype) (b : Bool) :
    (∀ c ∈ cleanColName name, isWordChar c = true) ∧
      ' ' ∉ cleanColName name ∧
      List.count '_' (cleanColName name) =
        List.count '_' (pyStrip name) + List.count ' ' (pyStrip name) ∧
      (containsSub "date".data (lowerL name) = true → inferDtype name d b = .datetimeD) ∧
      (containsSub "date".data (lowerL name) = false → d = .objectD → b = true →
        inferDtype name d b = .numericD) := by
  refine ⟨?_, ?_, ?_, ?_, ?_⟩
  · intro c hc
    exact List.of_mem_filter hc
  · intro hm
    have := List.of_mem_filter hm
    exact absurd this (by decide)
  · unfold cleanColName
    rw [List.count_filter (by decide), count_underscore_map]
  · intro hd
    unfold inferDtype
    rw [hd]
    rfl
  · intro hd hob hb
    unfold inferDtype
    rw [hd, hob, hb]
    rfl

/-- C8 witness: ` Order  Date! ` cleans to `Order__Date` (word
characters only) and is inferred as a date column. -/
theorem C8_witness :
    (∀ c ∈ cleanColName " Order  Date! ".data, isWordChar c = true) ∧
      inferDtype " Order  Date! ".data Dtype.otherD false = Dtype.datetimeD := by
  have h := C8_preprocess " Order  Date! ".data Dtype.otherD false
  exact ⟨h.1, h.2.2.2.1 (by decide)⟩
